import Mathlib

/-!
blobstr-relay: the access-control gates of `main.go`

A shallow embedding of the policy functions of `src/main.go`:

* `rejectGetHandler` (the download gate) with its helpers
  `filterOnlyLatestEventForEachAuthor`, `isPubkeyTaggedInEvent`, `pubkeyOwnsBlob`;
* `rejectUploadHandler` (the upload gate) with `getMaxFileSize`, `getAllowedUsers`;
* the `RejectEvent` closure installed by `configureRelayEventHandling`.
* `configureBlossomRules` on the handler lists of the blob server, and the blob handlers
  `storeBlobHandler`, `loadBlobHandler`, `deleteBlobHandler` over a model of the file system
  (`filepath.Join`, `os.MkdirAll`, `os.WriteFile`, `os.Open`, `os.Remove`).

Conventions of the embedding.

* Go `string` is `String`; Go `int` and `nostr.Timestamp` (`int64`) are `Int`. The gates only
  compare these numbers, no arithmetic is done on them, so no wrap-around can occur.
* A Go `error` is represented by its message (`err.Error()`), so a call returning
  `(T, error)` is an `Except String T`.
  The errors of the file-system calls are the exception: of those only the failure is kept.
* A channel that is drained with `for x := range ch` is the finite list of the values read.
* A Go runtime panic (here only "index out of range") is the `none` of an `Option` result.
* A Go `map[string]T` is an association list with pairwise distinct keys. Go leaves the
  iteration order of `range` over a map unspecified: it is a parameter (`RangeOrder`).
* The process environment read through `os.LookupEnv` is a parameter (`Env`).
* `fmt.Println` / `fmt.Printf` diagnostics have no influence on the results and are dropped.
-/

namespace BlobstrRelay

/-! ## Data model -/

/-- The type `nostr.Tag` is `[]string`: any number of elements, possibly none. -/
abbrev Tag := List String

/-- The fields of `nostr.Event` the gates read (`PubKey`, `CreatedAt`, `Kind`, `Tags`) together
with `ID` and `Content`, which tell apart two events of one author with one timestamp. -/
structure Event where
  ID : String
  PubKey : String
  CreatedAt : Int
  Kind : Int
  Tags : List Tag
  Content : String
  deriving DecidableEq, Repr

/-- The type `nostr.Filter`, restricted to the two fields `rejectGetHandler` fills in. `Tags` is a
`nostr.TagMap` (tag name to accepted values), written as its list of entries. -/
structure Filter where
  Kinds : List Int
  Tags : List (String × List String)
  deriving DecidableEq, Repr

/-- The type `blossom.BlobDescriptor` (its field `Type` is written `ContentType`). -/
structure BlobDescriptor where
  URL : String
  SHA256 : String
  Size : Int
  ContentType : String
  Uploaded : Int
  deriving DecidableEq, Repr

/-- The event store (`*badger.BadgerBackend`) as far as the download gate uses it:
`db.QueryEvents(ctx, filter)` yields either an error or the events read from the channel. -/
structure BadgerBackend where
  QueryEvents : Filter → Except String (List Event)

/-- The blob index `bl.Store`: `List(ctx, pubkey)` yields either an error or the descriptors read
from the channel. -/
structure BlobIndex where
  list : String → Except String (List BlobDescriptor)

/-- The part of `*blossom.BlossomServer` the gates read. -/
structure BlossomServer where
  Store : BlobIndex

/-- The constant `nostr.KindFileMetadata` of go-nostr (NIP-94 file metadata). -/
def KindFileMetadata : Int := 1063

/-- The process environment: `env key` is `some v` when `os.LookupEnv(key)` finds `v`. -/
abbrev Env := String → Option String

/-! ## Go maps -/

/-- A Go `map[string]α` as an association list whose keys are pairwise distinct. -/
abbrev GoMap (α : Type) := List (String × α)

/-- The two-valued map read `v, exists := m[k]`. -/
def GoMap.find {α : Type} : GoMap α → String → Option α
  | [], _ => none
  | (k', v) :: rest, k => if k' = k then some v else GoMap.find rest k

/-- The map write `m[k] = v`: replaces the value of an existing key, else adds the entry. -/
def GoMap.put {α : Type} : GoMap α → String → α → GoMap α
  | [], k, v => [(k, v)]
  | (k', v') :: rest, k, v =>
    if k' = k then (k, v) :: rest else (k', v') :: GoMap.put rest k v

/-- One possible behaviour of `for _, v := range m` over a map: the entries of `m` are visited
in some order, each exactly once. -/
structure RangeOrder where
  iter : GoMap Event → List (String × Event)
  perm : ∀ m : GoMap Event, (iter m).Perm m

/-- Iteration in insertion order. -/
def RangeOrder.insertion : RangeOrder := ⟨fun m => m, fun _ => List.Perm.refl _⟩

/-- Iteration in reverse insertion order. -/
def RangeOrder.reversed : RangeOrder := ⟨fun m => m.reverse, fun m => List.reverse_perm m⟩

/-! ## Configuration (`getEnv`, `getEnvAsInt`, `getMaxFileSize`, `getAllowedUsers`) -/

/-- Source: `getEnv`. -/
def getEnv (env : Env) (key fallback : String) : String :=
  match env key with
  | some value => value
  | none => fallback

/-- Reads a run of decimal digits, most significant first; `none` on any other character. -/
def parseDigits : List Char → Nat → Option Nat
  | [], acc => some acc
  | c :: cs, acc =>
    if c.isDigit then parseDigits cs (acc * 10 + (c.toNat - 48)) else none

/-- Go's `strconv.Atoi` on a 64-bit platform: an optional sign followed by at least one decimal
digit, and a value within the range of `int64`; anything else is an error (`none`). -/
def Atoi (s : String) : Option Int :=
  let signed : Bool × List Char :=
    match s.data with
    | '-' :: ds => (true, ds)
    | '+' :: ds => (false, ds)
    | ds => (false, ds)
  match signed.2 with
  | [] => none
  | ds =>
    match parseDigits ds 0 with
    | none => none
    | some n =>
      let v : Int := if signed.1 then -(n : Int) else (n : Int)
      if -(2 : Int) ^ 63 ≤ v ∧ v ≤ (2 : Int) ^ 63 - 1 then some v else none

/-- Source: `getEnvAsInt`. -/
def getEnvAsInt (env : Env) (key : String) (fallback : Int) : Int :=
  match env key with
  | some valueStr =>
    match Atoi valueStr with
    | some value => value
    | none => fallback
  | none => fallback

/-- Source: `getMaxFileSize`. -/
def getMaxFileSize (env : Env) : Int :=
  getEnvAsInt env "MAX_FILE_SIZE" (10 * 1024 * 1024)

/-- Splits a character sequence at every occurrence of `sep`: `n` separators give `n + 1`
segments, empty ones included. -/
def splitAt (sep : Char) : List Char → List (List Char)
  | [] => [[]]
  | c :: cs =>
    if c = sep then [] :: splitAt sep cs
    else
      match splitAt sep cs with
      | [] => [[c]]
      | seg :: segs => (c :: seg) :: segs

/-- Go's `strings.Split(s, ",")`. -/
def stringsSplitComma (s : String) : List String :=
  (splitAt ',' s.data).map String.mk

/-- Source: `getAllowedUsers`. -/
def getAllowedUsers (env : Env) : GoMap Bool :=
  let envValue := getEnv env "ALLOWED_USERS" ""
  if envValue = "" then []
  else (stringsSplitComma envValue).foldl (fun allowedUsersMap user => GoMap.put allowedUsersMap user true) []

/-- The one-valued map read `m[k]` on a `map[string]bool`: `false` for a missing key. -/
def GoMap.index (m : GoMap Bool) (k : String) : Bool :=
  (GoMap.find m k).getD false

/-! ## The download gate -/

/-- The body of the loop of `filterOnlyLatestEventForEachAuthor` that fills `latestEvents`. -/
def latestEventsLoop : List Event → GoMap Event → GoMap Event
  | [], latestEvents => latestEvents
  | event :: rest, latestEvents =>
    match GoMap.find latestEvents event.PubKey with
    | none => latestEventsLoop rest (GoMap.put latestEvents event.PubKey event)
    | some currentEvent =>
      if currentEvent.CreatedAt < event.CreatedAt then
        latestEventsLoop rest (GoMap.put latestEvents event.PubKey event)
      else latestEventsLoop rest latestEvents

/-- Source: `filterOnlyLatestEventForEachAuthor`. The slice is rebuilt by ranging over the map,
in the order `ord` picks. -/
def filterOnlyLatestEventForEachAuthor (ord : RangeOrder) (events : List Event) : List Event :=
  (ord.iter (latestEventsLoop events [])).map Prod.snd

/-- The condition `tag[0] == "p" && tag[1] == pubkey` of `isPubkeyTaggedInEvent`. Indexing past
the end of the slice panics (`none`); `&&` evaluates `tag[1]` only when `tag[0] == "p"`. -/
def tagIsPubkey (tag : Tag) (pubkey : String) : Option Bool :=
  match tag with
  | [] => none
  | t0 :: rest =>
    if t0 = "p" then
      match rest with
      | [] => none
      | t1 :: _ => some (decide (t1 = pubkey))
    else some false

/-- The loop of `isPubkeyTaggedInEvent` over `event.Tags`. -/
def isPubkeyTaggedInTags : List Tag → String → Option Bool
  | [], _ => some false
  | tag :: tags, pubkey =>
    match tagIsPubkey tag pubkey with
    | none => none
    | some true => some true
    | some false => isPubkeyTaggedInTags tags pubkey

/-- Source: `isPubkeyTaggedInEvent`. -/
def isPubkeyTaggedInEvent (event : Event) (pubkey : String) : Option Bool :=
  isPubkeyTaggedInTags event.Tags pubkey

/-- Source: `pubkeyOwnsBlob`. -/
def pubkeyOwnsBlob (bl : BlossomServer) (pubkey sha256 : String) : Bool :=
  match bl.Store.list pubkey with
  | .error _ => false
  | .ok blobDescriptors => blobDescriptors.any (fun blobDescriptor => decide (blobDescriptor.SHA256 = sha256))

/-- The final loop of `rejectGetHandler` over the reduced events, with the closing `return`. -/
def rejectGetLoop (bl : BlossomServer) (authPubKey sha256 : String) :
    List Event → Option (Bool × String × Int)
  | [] => some (true, "Unauthorized access or no associated event found", 403)
  | event :: rest =>
    match isPubkeyTaggedInEvent event authPubKey with
    | none => none
    | some true =>
      if pubkeyOwnsBlob bl event.PubKey sha256 then some (false, "", 200)
      else rejectGetLoop bl authPubKey sha256 rest
    | some false => rejectGetLoop bl authPubKey sha256 rest

/-- Source: `rejectGetHandler` (the closure it returns). `auth = none` is the nil credential.
The result is `(reject, reason, status)`, or `none` when the handler panics. -/
def rejectGetHandler (ord : RangeOrder) (bl : BlossomServer) (db : BadgerBackend)
    (auth : Option Event) (sha256 : String) : Option (Bool × String × Int) :=
  match auth with
  | none => some (true, "Authorization event is missing", 403)
  | some a =>
    match db.QueryEvents ⟨[1063], [("x", [sha256])]⟩ with
    | .error err => some (true, "Error querying events: " ++ err, 500)
    | .ok events =>
      rejectGetLoop bl a.PubKey sha256 (filterOnlyLatestEventForEachAuthor ord events)

/-! ## The upload gate and the event-ingestion gate -/

/-- Source: `rejectUploadHandler` (the closure it returns). -/
def rejectUploadHandler (env : Env) (auth : Option Event) (size : Int) (_ext : String) :
    Bool × String × Int :=
  if size > getMaxFileSize env then (true, "file too large", 413)
  else
    match auth with
    | none => (true, "unauthorized", 403)
    | some a =>
      if !GoMap.index (getAllowedUsers env) a.PubKey then (true, "unauthorized", 403)
      else (false, "", 200)

/-- Source: the `RejectEvent` closure appended by `configureRelayEventHandling`. The result is
`(reject, reason)`. -/
def rejectEventHandler (env : Env) (event : Event) : Bool × String :=
  if event.Kind ≠ KindFileMetadata then (true, "Only file metadata events are allowed")
  else if !GoMap.index (getAllowedUsers env) event.PubKey then (true, "Unauthorized pubkey")
  else (false, "")

/-- The loop invariant of `filterOnlyLatestEventForEachAuthor`, relating the map `m` to the
events `seen` so far: the keys are distinct; an entry stored under `k` is a seen event of
author `k` whose `CreatedAt` no seen event of `k` exceeds; every seen author has an entry. -/
def LatestInvariant (seen : List Event) (m : GoMap Event) : Prop :=
  (m.map Prod.fst).Nodup ∧
  (∀ k e, GoMap.find m k = some e →
    e.PubKey = k ∧ e ∈ seen ∧ ∀ e2 ∈ seen, e2.PubKey = k → e2.CreatedAt ≤ e.CreatedAt) ∧
  (∀ e ∈ seen, ∃ e2, GoMap.find m e.PubKey = some e2)

/-- An event `e` is the first of `events` among those of its author that carry the greatest
`CreatedAt`: the events of its author before it are strictly older, those after it not newer. -/
def FirstLatest (events : List Event) (e : Event) : Prop :=
  ∃ before after, events = before ++ e :: after ∧
    (∀ x ∈ before, x.PubKey = e.PubKey → x.CreatedAt < e.CreatedAt) ∧
    (∀ x ∈ after, x.PubKey = e.PubKey → x.CreatedAt ≤ e.CreatedAt)

/-! ## The file system (`filepath.Join`, `os.MkdirAll`, `os.WriteFile`, `os.Open`, `os.Remove`) -/

/-- A Go `[]byte`. -/
abbrev Bytes := List (Fin 256)

/-- A path as `filepath.Clean` leaves it: rooted (`/...`) or relative, a number of leading `..`
(relative paths only), then the named components, none of which is empty, `.` or `..`. The
relative path without components is `.`, the rooted one is `/`. -/
structure CleanPath where
  rooted : Bool
  ups : Nat
  comps : List String
  deriving DecidableEq, Repr

/-- What a path names: a directory or a regular file with its content. -/
inductive Node where
  | dir : Node
  | file (content : Bytes) : Node
  deriving DecidableEq, Repr

/-- The non-nil `error` of a failed file-system call. Only that the call fails is modelled, not
which error the operating system reports, nor the state a failed call leaves behind. -/
inductive OSError where
  | failed : OSError
  deriving DecidableEq, Repr

/-- The file system: the nodes that exist, by cleaned path. The root, the working directory and
its ancestors (the paths without components) always exist as directories and are not listed.
Outside the model: symbolic links (`.` and `..` are resolved on the path text, as
`filepath.Clean` does), permissions, quotas, and limits on the length of a whole path. -/
abbrev FileSystem := List (CleanPath × Node)

/-- The listed node of a path. -/
def fsFind : FileSystem → CleanPath → Option Node
  | [], _ => none
  | (q, n) :: rest, p => if q = p then some n else fsFind rest p

/-- Sets the node of a path, replacing an existing one. -/
def fsPut : FileSystem → CleanPath → Node → FileSystem
  | [], p, n => [(p, n)]
  | (q, m) :: rest, p, n => if q = p then (p, n) :: rest else (q, m) :: fsPut rest p n

/-- Unlists a path. -/
def fsErase : FileSystem → CleanPath → FileSystem
  | [], _ => []
  | (q, m) :: rest, p => if q = p then rest else (q, m) :: fsErase rest p

/-- The node a path names, the always existing directories included. -/
def fsLookup (fs : FileSystem) (p : CleanPath) : Option Node :=
  if p.comps = [] then some Node.dir else fsFind fs p

/-- The directory holding a path that has at least one component. -/
def CleanPath.parent (p : CleanPath) : CleanPath := ⟨p.rooted, p.ups, p.comps.dropLast⟩

/-- One step of `filepath.Clean` over the components of a path: empty components and `.` are
dropped; `..` removes the component before it, is dropped at the root, and is kept, counted
in the first entry, at the start of a relative path; any other component is kept. -/
def cleanStep (rooted : Bool) (st : Nat × List String) (c : String) : Nat × List String :=
  if c = "" ∨ c = "." then st
  else if c = ".." then
    if st.2 = [] then (if rooted then st else (st.1 + 1, []))
    else (st.1, st.2.dropLast)
  else (st.1, st.2 ++ [c])

/-- Go's `filepath.Clean` on a Unix path. -/
def filepathClean (path : String) : CleanPath :=
  let rooted : Bool := decide (path.data.head? = some '/')
  let st := ((splitAt '/' path.data).map String.mk).foldl (cleanStep rooted) (0, [])
  ⟨rooted, st.1, st.2⟩

/-- Go's `filepath.Join` of two elements: leading empty elements are skipped, the others are
joined by `/` and cleaned; `none` is the empty string Go returns when both are empty. -/
def filepathJoin (a b : String) : Option CleanPath :=
  if a = "" then (if b = "" then none else some (filepathClean b))
  else some (filepathClean (a ++ "/" ++ b))

/-- A file name the file system accepts (Linux): at most 255 bytes and no NUL byte. -/
def nameOk (c : String) : Bool :=
  decide (c.utf8ByteSize ≤ 255) && !c.data.contains (Char.ofNat 0)

/-- Every component of the path is an acceptable file name. -/
def pathOk (p : CleanPath) : Bool := p.comps.all nameOk

/-- The walk of `os.MkdirAll` down the components of a path: `done` is the part already known
to be a directory. A missing directory is created, an existing one is kept, and a regular file
in the way is an error. -/
def mkdirPrefixes (rooted : Bool) (ups : Nat) :
    List String → List String → FileSystem → Except OSError FileSystem
  | _, [], fs => .ok fs
  | done, c :: rest, fs =>
    match fsFind fs ⟨rooted, ups, done ++ [c]⟩ with
    | some Node.dir => mkdirPrefixes rooted ups (done ++ [c]) rest fs
    | some (Node.file _) => .error OSError.failed
    | none =>
      mkdirPrefixes rooted ups (done ++ [c]) rest (fsPut fs ⟨rooted, ups, done ++ [c]⟩ Node.dir)

/-- Go's `os.MkdirAll(path, 0755)`: fails on the empty path, on an unacceptable name and when a
regular file is in the way; otherwise every missing directory along the path is created. -/
def MkdirAll (fs : FileSystem) (path : String) : Except OSError FileSystem :=
  if path = "" then .error OSError.failed
  else if !pathOk (filepathClean path) then .error OSError.failed
  else
    mkdirPrefixes (filepathClean path).rooted (filepathClean path).ups []
      (filepathClean path).comps fs

/-- Go's `os.WriteFile(path, body, 0644)` on a joined path: fails on the empty path, on an
unacceptable name, when the path names a directory and when the directory holding it is
missing or is a regular file; otherwise the file is created or its whole content replaced. -/
def WriteFile (fs : FileSystem) (path : Option CleanPath) (body : Bytes) :
    Except OSError FileSystem :=
  match path with
  | none => .error OSError.failed
  | some p =>
    if !pathOk p then .error OSError.failed
    else
      match fsLookup fs p with
      | some Node.dir => .error OSError.failed
      | _ =>
        match fsLookup fs p.parent with
        | some Node.dir => .ok (fsPut fs p (Node.file body))
        | some (Node.file _) => .error OSError.failed
        | none => .error OSError.failed

/-- Go's `os.Open(path)` on a joined path: fails when nothing has that path, else yields what
was opened (a directory can be opened too). -/
def Open (fs : FileSystem) (path : Option CleanPath) : Except OSError Node :=
  match path with
  | none => .error OSError.failed
  | some p =>
    if !pathOk p then .error OSError.failed
    else
      match fsLookup fs p with
      | none => .error OSError.failed
      | some n => .ok n

/-- Go's `os.Remove(path)` on a joined path: removes a regular file or an empty directory;
fails when nothing has that path, on a directory that is not empty, and on the root, the
working directory and its ancestors. -/
def Remove (fs : FileSystem) (path : Option CleanPath) : Except OSError FileSystem :=
  match path with
  | none => .error OSError.failed
  | some p =>
    if !pathOk p then .error OSError.failed
    else if p.comps = [] then .error OSError.failed
    else
      match fsFind fs p with
      | none => .error OSError.failed
      | some (Node.file _) => .ok (fsErase fs p)
      | some Node.dir =>
        if fs.any (fun entry => decide (entry.1.comps ≠ [] ∧ entry.1.parent = p)) then
          .error OSError.failed
        else .ok (fsErase fs p)

/-! ## The blob store (`storeBlobHandler`, `loadBlobHandler`, `deleteBlobHandler`) -/

/-- Source: `getBlobDir`. -/
def getBlobDir (env : Env) : String :=
  getEnv env "BLOB_DIRECTORY" "blobs"

/-- Source: `storeBlobHandler`. -/
def storeBlobHandler (env : Env) (sha256 : String) (body : Bytes) (fs : FileSystem) :
    Except OSError FileSystem :=
  let blobPath := filepathJoin (getBlobDir env) sha256
  match MkdirAll fs (getBlobDir env) with
  | .error err => .error err
  | .ok fs1 => WriteFile fs1 blobPath body

/-- Source: `loadBlobHandler`. -/
def loadBlobHandler (env : Env) (sha256 : String) (fs : FileSystem) : Except OSError Node :=
  let blobPath := filepathJoin (getBlobDir env) sha256
  match Open fs blobPath with
  | .error err => .error err
  | .ok file => .ok file

/-- Source: `deleteBlobHandler`. -/
def deleteBlobHandler (env : Env) (sha256 : String) (fs : FileSystem) :
    Except OSError FileSystem :=
  let blobPath := filepathJoin (getBlobDir env) sha256
  match Remove fs blobPath with
  | .error err => .error err
  | .ok fs1 => .ok fs1

/-- The handler lists of `*blossom.BlossomServer`. Handlers that read the environment or range
over a map take it as an argument at each call. -/
structure BlossomHooks where
  StoreBlob : List (Env → String → Bytes → FileSystem → Except OSError FileSystem)
  LoadBlob : List (Env → String → FileSystem → Except OSError Node)
  DeleteBlob : List (Env → String → FileSystem → Except OSError FileSystem)
  RejectUpload : List (Env → Option Event → Int → String → Bool × String × Int)
  RejectGet : List (RangeOrder → Option Event → String → Option (Bool × String × Int))
  RejectList : List (Env → Option Event → String → Bool × String × Int)
  RejectDelete : List (Env → Option Event → String → Bool × String × Int)

/-- Handler lists that are all empty: a server to which no handler has been added yet. -/
def BlossomHooks.fresh : BlossomHooks := ⟨[], [], [], [], [], [], []⟩

/-- Source: `configureBlossomRules`, on the handler lists `hooks` of `bl`. -/
def configureBlossomRules (bl : BlossomServer) (db : BadgerBackend) (hooks : BlossomHooks) :
    BlossomHooks :=
  ⟨hooks.StoreBlob ++ [storeBlobHandler],
   hooks.LoadBlob ++ [loadBlobHandler],
   hooks.DeleteBlob ++ [deleteBlobHandler],
   hooks.RejectUpload ++ [rejectUploadHandler],
   hooks.RejectGet ++ [fun ord auth sha256 => rejectGetHandler ord bl db auth sha256],
   hooks.RejectList,
   hooks.RejectDelete⟩

/-! ## Concrete inputs used by the scenarios, witnesses and counterexamples -/

/-- A credential (an authorization event) issued by `pk`. -/
def credentialOf (pk : String) : Event := ⟨"auth", pk, 1700000000, 24242, [], ""⟩

/-- A file-metadata event of author `pk` created at `t`, carrying the given tags. -/
def metadataEvent (id pk : String) (t : Int) (tags : List Tag) : Event :=
  ⟨id, pk, t, 1063, tags, ""⟩

/-- A blob descriptor for the hash `h`. -/
def descriptorOf (h : String) : BlobDescriptor := ⟨"http://0.0.0.0:3334/" ++ h, h, 1, "", 0⟩

/-- An event store whose every query succeeds with the events `evs`. -/
def backendReturning (evs : List Event) : BadgerBackend := ⟨fun _ => .ok evs⟩

/-- An event store whose every query fails with the message `msg`. -/
def backendFailing (msg : String) : BadgerBackend := ⟨fun _ => .error msg⟩

/-- A blob server in which `owner` lists exactly the hashes `hs` and nobody else lists any. -/
def serverListing (owner : String) (hs : List String) : BlossomServer :=
  ⟨⟨fun pk => .ok (if pk = owner then hs.map descriptorOf else [])⟩⟩

/-- An environment in which only `ALLOWED_USERS` and `MAX_FILE_SIZE` are set. -/
def envOf (allowed maxSize : String) : Env := fun key =>
  if key = "ALLOWED_USERS" then some allowed
  else if key = "MAX_FILE_SIZE" then some maxSize
  else none

/-- An environment with no variable set. -/
def envUnset : Env := fun _ => none

/-- A blob server on which every listing fails with the message `msg`. -/
def serverListingFails (msg : String) : BlossomServer := ⟨⟨fun _ => .error msg⟩⟩

/-- An environment in which only `ALLOWED_USERS` is set. -/
def envAllowed (allowed : String) : Env := fun key =>
  if key = "ALLOWED_USERS" then some allowed else none

/-- A delete credential issued by `pk` for the hash `h`: tags `t = delete` and `x = h`. -/
def deleteCredentialOf (pk h : String) : Event :=
  ⟨"auth", pk, 1700000000, 24242, [["t", "delete"], ["x", h]], ""⟩

/-- C4. An upload whose size exceeds `MaxFileSize` is denied with "file too large" and status
413, for every credential (absent, allow-listed or not) and every extension: the size test
comes first. -/
theorem upload_too_large (env : Env) (auth : Option Event) (size : Int) (ext : String)
    (h : size > getMaxFileSize env) :
    rejectUploadHandler env auth size ext = (true, "file too large", 413) := by
  unfold rejectUploadHandler
  rw [if_pos h]

/-- Witness for `upload_too_large`: one byte more than the limit, from an allow-listed issuer. -/
theorem upload_too_large_witness :
    GoMap.index (getAllowedUsers (envOf "pk1" "10485760")) "pk1" = true ∧
    rejectUploadHandler (envOf "pk1" "10485760") (some (credentialOf "pk1")) 10485761 "png"
      = (true, "file too large", 413) :=
  ⟨by decide, upload_too_large _ _ _ _ (by decide)⟩

/-- C5, as stated, fails: an identity outside the AllowList uploading more than `MaxFileSize`
is denied with "file too large", not with "unauthorized". -/
theorem upload_not_allowed_reason_counterexample :
    GoMap.index (getAllowedUsers (envOf "pk1" "10485760")) "pk9" = false ∧
    (rejectUploadHandler (envOf "pk1" "10485760") (some (credentialOf "pk9")) 20971520 "png").2.1
      ≠ "unauthorized" := by
  decide

/-- C5, amended. A credential whose issuer is not in the AllowList is denied at every size; the
verdict is "unauthorized"/403 when the size is at most `MaxFileSize` and "file too large"/413
when it is larger. -/
theorem upload_not_allowed (env : Env) (a : Event) (size : Int) (ext : String)
    (h : GoMap.index (getAllowedUsers env) a.PubKey = false) :
    (rejectUploadHandler env (some a) size ext).1 = true ∧
    (size ≤ getMaxFileSize env →
      rejectUploadHandler env (some a) size ext = (true, "unauthorized", 403)) ∧
    (size > getMaxFileSize env →
      rejectUploadHandler env (some a) size ext = (true, "file too large", 413)) := by
  unfold rejectUploadHandler
  by_cases hs : size > getMaxFileSize env
  · simp [hs]
  · simp [hs, h, not_lt.mp hs]

/-- Witness for `upload_not_allowed`: `pk9` is not allow-listed and uploads 5MB. -/
theorem upload_not_allowed_witness :
    rejectUploadHandler (envOf "pk1" "10485760") (some (credentialOf "pk9")) 5242880 "png"
      = (true, "unauthorized", 403) :=
  (upload_not_allowed (envOf "pk1" "10485760") (credentialOf "pk9") 5242880 "png"
    (by decide)).2.1 (by decide)

/-- C6. For a size of at most `MaxFileSize` the upload gate allows (status 200, empty reason)
exactly when a credential is present and its issuer is in the AllowList, and otherwise denies
with "unauthorized"/403; the extension has no influence on the verdict. -/
theorem upload_within_limit (env : Env) (auth : Option Event) (size : Int) (ext : String)
    (h : size ≤ getMaxFileSize env) :
    (rejectUploadHandler env auth size ext = (false, "", 200) ↔
      ∃ a, auth = some a ∧ GoMap.index (getAllowedUsers env) a.PubKey = true) ∧
    ((¬ ∃ a, auth = some a ∧ GoMap.index (getAllowedUsers env) a.PubKey = true) →
      rejectUploadHandler env auth size ext = (true, "unauthorized", 403)) ∧
    (∀ ext2 : String,
      rejectUploadHandler env auth size ext2 = rejectUploadHandler env auth size ext) := by
  have hs : ¬ size > getMaxFileSize env := not_lt.mpr h
  unfold rejectUploadHandler
  cases auth with
  | none => simp [hs]
  | some a =>
    cases hidx : GoMap.index (getAllowedUsers env) a.PubKey <;> simp [hs, hidx]

/-- Witness for `upload_within_limit`, Scenario B: AllowList `pk1`, issuer `pk1`, 5MB against a
limit of 10MB is allowed with status 200; so is an upload of exactly 10MB. -/
theorem upload_within_limit_witness :
    rejectUploadHandler (envOf "pk1" "10485760") (some (credentialOf "pk1")) 5242880 "png"
      = (false, "", 200) ∧
    rejectUploadHandler (envOf "pk1" "10485760") (some (credentialOf "pk1")) 10485760 "png"
      = (false, "", 200) :=
  ⟨(upload_within_limit (envOf "pk1" "10485760") (some (credentialOf "pk1")) 5242880 "png"
      (by decide)).1.mpr ⟨_, rfl, by decide⟩,
   by decide⟩

/-! ## Event-ingestion gate -/

/-- C7. The `RejectEvent` gate accepts an event exactly when its kind is 1063 (file metadata)
and its author is in the AllowList; an event of another kind is rejected even if its author is
allow-listed, and a file-metadata event of an author outside the AllowList is rejected. -/
theorem rejectEvent_accepts_iff (env : Env) (event : Event) :
    ((rejectEventHandler env event).1 = false ↔
      event.Kind = 1063 ∧ GoMap.index (getAllowedUsers env) event.PubKey = true) ∧
    (event.Kind ≠ 1063 →
      rejectEventHandler env event = (true, "Only file metadata events are allowed")) ∧
    (event.Kind = 1063 → GoMap.index (getAllowedUsers env) event.PubKey = false →
      rejectEventHandler env event = (true, "Unauthorized pubkey")) := by
  unfold rejectEventHandler KindFileMetadata
  by_cases hk : event.Kind = 1063
  · cases hidx : GoMap.index (getAllowedUsers env) event.PubKey <;> simp [hk, hidx]
  · simp [hk]

/-- Witness for `rejectEvent_accepts_iff`: a kind-1 note of the allow-listed `pk1` is rejected,
a kind-1063 event of `pk9` is rejected, a kind-1063 event of `pk1` is accepted. -/
theorem rejectEvent_accepts_iff_witness :
    rejectEventHandler (envOf "pk1" "10485760") ⟨"n", "pk1", 5, 1, [], "hello"⟩
      = (true, "Only file metadata events are allowed") ∧
    rejectEventHandler (envOf "pk1" "10485760") (metadataEvent "m" "pk9" 5 [])
      = (true, "Unauthorized pubkey") ∧
    (rejectEventHandler (envOf "pk1" "10485760") (metadataEvent "m" "pk1" 5 [])).1 = false :=
  ⟨(rejectEvent_accepts_iff _ _).2.1 (by decide),
   (rejectEvent_accepts_iff _ _).2.2 (by decide) (by decide),
   (rejectEvent_accepts_iff _ _).1.mpr ⟨by decide, by decide⟩⟩

/-! ## Download gate: missing credential, failed query, empty result -/

/-- C2, as stated, fails on the reason text: for an absent credential and the hash `abc123` the
gate does not answer "authorization credential missing". -/
theorem get_missing_credential_counterexample :
    rejectGetHandler RangeOrder.insertion (serverListing "pk3" ["abc123"])
        (backendReturning []) none "abc123"
      ≠ some (true, "authorization credential missing", 403) := by
  decide

/-- C2, amended. With the credential absent the download gate denies with status 403 and the
reason "Authorization event is missing", whatever the hash, the event store, the blob index and
the map iteration order are: the event store is not consulted. -/
theorem get_missing_credential (ord : RangeOrder) (bl : BlossomServer) (db : BadgerBackend)
    (sha256 : String) :
    rejectGetHandler ord bl db none sha256 = some (true, "Authorization event is missing", 403) :=
  rfl

/-- C9. With a credential present, if the query of the event store fails with the error `e`,
the download gate denies with status 500 and the reason "Error querying events: " followed by
the message of `e`; in particular it rejects. -/
theorem get_query_failure (ord : RangeOrder) (bl : BlossomServer) (db : BadgerBackend)
    (a : Event) (sha256 e : String)
    (h : db.QueryEvents ⟨[1063], [("x", [sha256])]⟩ = .error e) :
    rejectGetHandler ord bl db (some a) sha256
        = some (true, "Error querying events: " ++ e, 500) ∧
    (∀ v, rejectGetHandler ord bl db (some a) sha256 = some v → v.1 = true) := by
  have hres : rejectGetHandler ord bl db (some a) sha256
      = some (true, "Error querying events: " ++ e, 500) := by
    simp only [rejectGetHandler, h]
  refine ⟨hres, ?_⟩
  intro v hv
  rw [hres] at hv
  cases hv
  rfl

/-- Witness for `get_query_failure`: the store fails with "disk failure" although the blob is
listed by an author who tagged the requester. -/
theorem get_query_failure_witness :
    rejectGetHandler RangeOrder.insertion (serverListing "pk3" ["h1"])
        (backendFailing "disk failure") (some (credentialOf "pk2")) "h1"
      = some (true, "Error querying events: disk failure", 500) :=
  (get_query_failure RangeOrder.insertion (serverListing "pk3" ["h1"])
    (backendFailing "disk failure") (credentialOf "pk2") "h1" "disk failure" rfl).1

/-- The reduction of an empty result is empty, in every iteration order. -/
theorem filterOnlyLatest_nil (ord : RangeOrder) :
    filterOnlyLatestEventForEachAuthor ord [] = [] := by
  have h := ord.perm []
  simp only [filterOnlyLatestEventForEachAuthor, latestEventsLoop]
  rw [List.perm_nil.mp h]
  rfl

/-- C10. With a credential present, if the query succeeds and returns no event, the download
gate denies with status 403 and the reason "Unauthorized access or no associated event found",
which contains "no associated event found"; neither the blob index nor the environment (the
AllowList) takes part. -/
theorem get_no_event (ord : RangeOrder) (bl : BlossomServer) (db : BadgerBackend)
    (a : Event) (sha256 : String)
    (h : db.QueryEvents ⟨[1063], [("x", [sha256])]⟩ = .ok []) :
    rejectGetHandler ord bl db (some a) sha256
        = some (true, "Unauthorized access or no associated event found", 403) ∧
    ∃ pre post : String,
      "Unauthorized access or no associated event found"
        = pre ++ "no associated event found" ++ post := by
  refine ⟨?_, "Unauthorized access or ", "", by decide⟩
  simp only [rejectGetHandler, h, filterOnlyLatest_nil, rejectGetLoop]

/-- Witness for `get_no_event`: the store holds nothing for `h1`, though `pk2` itself lists
the blob. -/
theorem get_no_event_witness :
    rejectGetHandler RangeOrder.reversed (serverListing "pk2" ["h1"]) (backendReturning [])
        (some (credentialOf "pk2")) "h1"
      = some (true, "Unauthorized access or no associated event found", 403) :=
  (get_no_event RangeOrder.reversed (serverListing "pk2" ["h1"]) (backendReturning [])
    (credentialOf "pk2") "h1" rfl).1

/-! ## Go maps: reads after writes -/

theorem GoMap.find_put_same {α : Type} (m : GoMap α) (k : String) (v : α) :
    GoMap.find (GoMap.put m k v) k = some v := by
  induction m with
  | nil => simp [GoMap.put, GoMap.find]
  | cons p rest ih =>
    obtain ⟨k1, v1⟩ := p
    by_cases hk : k1 = k
    · simp [GoMap.put, GoMap.find, hk]
    · simp [GoMap.put, GoMap.find, hk, ih]

theorem GoMap.find_put_other {α : Type} (m : GoMap α) (k k2 : String) (v : α) (hne : k ≠ k2) :
    GoMap.find (GoMap.put m k v) k2 = GoMap.find m k2 := by
  induction m with
  | nil => simp [GoMap.put, GoMap.find, hne]
  | cons p rest ih =>
    obtain ⟨k1, v1⟩ := p
    by_cases hk : k1 = k
    · subst hk
      simp [GoMap.put, GoMap.find, hne]
    · simp [GoMap.put, GoMap.find, hk, ih]

theorem GoMap.keys_put {α : Type} (m : GoMap α) (k : String) (v : α) (x : String) :
    x ∈ (GoMap.put m k v).map Prod.fst ↔ x = k ∨ x ∈ m.map Prod.fst := by
  induction m with
  | nil => simp [GoMap.put]
  | cons p rest ih =>
    obtain ⟨k1, v1⟩ := p
    by_cases hk : k1 = k
    · subst hk
      simp [GoMap.put]
    · simp only [GoMap.put, hk, if_false, List.map_cons, List.mem_cons, ih]
      tauto

theorem GoMap.nodup_put {α : Type} (m : GoMap α) (k : String) (v : α)
    (h : (m.map Prod.fst).Nodup) : ((GoMap.put m k v).map Prod.fst).Nodup := by
  induction m with
  | nil => simp [GoMap.put]
  | cons p rest ih =>
    obtain ⟨k1, v1⟩ := p
    rw [List.map_cons, List.nodup_cons] at h
    by_cases hk : k1 = k
    · subst hk
      simpa [GoMap.put] using h
    · simp only [GoMap.put, hk, if_false, List.map_cons, List.nodup_cons]
      refine ⟨?_, ih h.2⟩
      intro hmem
      rcases (GoMap.keys_put rest k v k1).mp hmem with h1 | h1
      · exact hk h1
      · exact h.1 h1

theorem GoMap.mem_of_find {α : Type} (m : GoMap α) (k : String) (v : α)
    (h : GoMap.find m k = some v) : (k, v) ∈ m := by
  induction m with
  | nil => simp [GoMap.find] at h
  | cons p rest ih =>
    obtain ⟨k1, v1⟩ := p
    by_cases hk : k1 = k
    · subst hk
      simp [GoMap.find] at h
      simp [h]
    · simp only [GoMap.find, hk, if_false] at h
      exact List.mem_cons_of_mem _ (ih h)

theorem GoMap.find_of_mem {α : Type} (m : GoMap α) (k : String) (v : α)
    (hnd : (m.map Prod.fst).Nodup) (h : (k, v) ∈ m) : GoMap.find m k = some v := by
  induction m with
  | nil => simp at h
  | cons p rest ih =>
    obtain ⟨k1, v1⟩ := p
    rw [List.map_cons, List.nodup_cons] at hnd
    rcases List.mem_cons.mp h with heq | hmem
    · cases heq
      simp [GoMap.find]
    · have hne : k1 ≠ k := by
        intro hk
        subst hk
        exact hnd.1 (List.mem_map.mpr ⟨(k1, v), hmem, rfl⟩)
      simp only [GoMap.find, hne, if_false]
      exact ih hnd.2 hmem

/-! ## The latest-event-per-author reduction -/

theorem LatestInvariant.put {seen : List Event} {m : GoMap Event} (event : Event)
    (hinv : LatestInvariant seen m)
    (hnew : ∀ cur, GoMap.find m event.PubKey = some cur → cur.CreatedAt < event.CreatedAt) :
    LatestInvariant (seen ++ [event]) (GoMap.put m event.PubKey event) := by
  obtain ⟨hnd, hval, hkey⟩ := hinv
  refine ⟨GoMap.nodup_put m _ _ hnd, ?_, ?_⟩
  · intro k e hfind
    by_cases hk : event.PubKey = k
    · subst hk
      rw [GoMap.find_put_same] at hfind
      cases hfind
      refine ⟨rfl, by simp, ?_⟩
      intro e2 he2 hpk
      rcases List.mem_append.mp he2 with hs | hs
      · obtain ⟨cur, hcur⟩ := hkey e2 hs
        rw [hpk] at hcur
        have h1 := (hval _ _ hcur).2.2 e2 hs hpk
        have h2 := hnew cur hcur
        omega
      · rw [List.mem_singleton.mp hs]
    · rw [GoMap.find_put_other _ _ _ _ hk] at hfind
      obtain ⟨h1, h2, h3⟩ := hval k e hfind
      refine ⟨h1, List.mem_append_left _ h2, ?_⟩
      intro e2 he2 hpk
      rcases List.mem_append.mp he2 with hs | hs
      · exact h3 e2 hs hpk
      · rw [List.mem_singleton.mp hs] at hpk
        exact absurd hpk hk
  · intro e he
    by_cases hk : event.PubKey = e.PubKey
    · rw [← hk, GoMap.find_put_same]
      exact ⟨event, rfl⟩
    · rw [GoMap.find_put_other _ _ _ _ hk]
      rcases List.mem_append.mp he with hs | hs
      · exact hkey e hs
      · rw [List.mem_singleton.mp hs] at hk
        exact absurd rfl hk

theorem LatestInvariant.keep {seen : List Event} {m : GoMap Event} (event cur : Event)
    (hinv : LatestInvariant seen m) (hcur : GoMap.find m event.PubKey = some cur)
    (hold : ¬ cur.CreatedAt < event.CreatedAt) :
    LatestInvariant (seen ++ [event]) m := by
  obtain ⟨hnd, hval, hkey⟩ := hinv
  refine ⟨hnd, ?_, ?_⟩
  · intro k e hfind
    obtain ⟨h1, h2, h3⟩ := hval k e hfind
    refine ⟨h1, List.mem_append_left _ h2, ?_⟩
    intro e2 he2 hpk
    rcases List.mem_append.mp he2 with hs | hs
    · exact h3 e2 hs hpk
    · rw [List.mem_singleton.mp hs] at hpk ⊢
      rw [hpk, hfind] at hcur
      cases hcur
      omega
  · intro e he
    rcases List.mem_append.mp he with hs | hs
    · exact hkey e hs
    · rw [List.mem_singleton.mp hs]
      exact ⟨cur, hcur⟩

theorem latestEventsLoop_invariant (events : List Event) :
    ∀ (seen : List Event) (m : GoMap Event), LatestInvariant seen m →
      LatestInvariant (seen ++ events) (latestEventsLoop events m) := by
  induction events with
  | nil =>
    intro seen m h
    simpa [latestEventsLoop] using h
  | cons event rest ih =>
    intro seen m h
    have happ : seen ++ event :: rest = (seen ++ [event]) ++ rest := by simp
    rw [happ]
    unfold latestEventsLoop
    cases hfind : GoMap.find m event.PubKey with
    | none =>
      simp only
      exact ih _ _ (h.put event (by intro cur hc; rw [hfind] at hc; cases hc))
    | some cur =>
      simp only
      by_cases hlt : cur.CreatedAt < event.CreatedAt
      · rw [if_pos hlt]
        exact ih _ _ (h.put event (by intro c hc; rw [hfind] at hc; cases hc; exact hlt))
      · rw [if_neg hlt]
        exact ih _ _ (h.keep event cur hfind hlt)

theorem latestEventsLoop_spec (events : List Event) :
    LatestInvariant events (latestEventsLoop events []) := by
  have h := latestEventsLoop_invariant events [] [] ⟨by simp, by simp [GoMap.find], by simp⟩
  simpa using h

/-- Membership in the reduced list: the events stored in the map, whatever the order. -/
theorem mem_filterOnlyLatest (ord : RangeOrder) (events : List Event) (e : Event) :
    e ∈ filterOnlyLatestEventForEachAuthor ord events ↔
      GoMap.find (latestEventsLoop events []) e.PubKey = some e := by
  obtain ⟨hnd, hval, _⟩ := latestEventsLoop_spec events
  unfold filterOnlyLatestEventForEachAuthor
  constructor
  · intro h
    obtain ⟨⟨k, e1⟩, hmem, heq⟩ := List.mem_map.mp h
    simp only at heq
    subst heq
    have hm : (k, e1) ∈ latestEventsLoop events [] := (ord.perm _).mem_iff.mp hmem
    have hf := GoMap.find_of_mem _ _ _ hnd hm
    rw [(hval _ _ hf).1]
    exact hf
  · intro h
    have hm := GoMap.mem_of_find _ _ _ h
    exact List.mem_map.mpr ⟨(e.PubKey, e), (ord.perm _).mem_iff.mpr hm, rfl⟩

/-- The authors of the reduced list are pairwise distinct. -/
theorem nodup_authors_filterOnlyLatest (ord : RangeOrder) (events : List Event) :
    ((filterOnlyLatestEventForEachAuthor ord events).map Event.PubKey).Nodup := by
  obtain ⟨hnd, hval, _⟩ := latestEventsLoop_spec events
  unfold filterOnlyLatestEventForEachAuthor
  have hkeys : ((ord.iter (latestEventsLoop events [])).map Prod.snd).map Event.PubKey
      = (ord.iter (latestEventsLoop events [])).map Prod.fst := by
    rw [List.map_map]
    apply List.map_congr_left
    intro p hp
    obtain ⟨k, e1⟩ := p
    have hm : (k, e1) ∈ latestEventsLoop events [] := (ord.perm _).mem_iff.mp hp
    exact (hval _ _ (GoMap.find_of_mem _ _ _ hnd hm)).1
  rw [hkeys]
  exact ((ord.perm _).map Prod.fst).nodup_iff.mpr hnd

theorem RangeOrder.iter_singleton (ord : RangeOrder) (p : String × Event) :
    ord.iter [p] = [p] :=
  List.perm_singleton.mp (ord.perm [p])

theorem filterOnlyLatest_single (ord : RangeOrder) (e : Event) :
    filterOnlyLatestEventForEachAuthor ord [e] = [e] := by
  simp [filterOnlyLatestEventForEachAuthor, latestEventsLoop, GoMap.find, GoMap.put,
    RangeOrder.iter_singleton]

/-- Two events of one author with different timestamps reduce to the later one, in whichever
order the store returned them. -/
theorem filterOnlyLatest_pair (ord : RangeOrder) (earlier later : Event)
    (hpk : earlier.PubKey = later.PubKey) (hlt : earlier.CreatedAt < later.CreatedAt) :
    filterOnlyLatestEventForEachAuthor ord [earlier, later] = [later] ∧
    filterOnlyLatestEventForEachAuthor ord [later, earlier] = [later] := by
  have hnot : ¬ later.CreatedAt < earlier.CreatedAt := by omega
  constructor
  · simp [filterOnlyLatestEventForEachAuthor, latestEventsLoop, GoMap.find, GoMap.put, hpk, hlt,
      RangeOrder.iter_singleton]
  · simp [filterOnlyLatestEventForEachAuthor, latestEventsLoop, GoMap.find, GoMap.put, hpk, hnot,
      RangeOrder.iter_singleton]

/-- The reduction and the gate on two events of one author. In every iteration order,
`filterOnlyLatestEventForEachAuthor` returns a list
(1) whose elements are elements of the input, (2) in which no two elements have the same author,
(3) in which every author of the input occurs, and (4) whose events carry the greatest
`CreatedAt` among the input events of their author. Consequently, when the store returns two
events of one author with different `CreatedAt` (in either order), the download gate behaves as
on the later event alone; so if the tag scan of the later event answers "not tagged", the
download is denied with status 403, whatever the earlier event tags, and the download is never
allowed unless the tag scan of the later event answers "tagged". -/
theorem filterOnlyLatest_reduces (ord : RangeOrder) (events : List Event)
    (bl : BlossomServer) (db : BadgerBackend) (a : Event) (sha256 : String)
    (earlier later : Event) :
    (∀ e ∈ filterOnlyLatestEventForEachAuthor ord events, e ∈ events) ∧
    ((filterOnlyLatestEventForEachAuthor ord events).map Event.PubKey).Nodup ∧
    (∀ e ∈ events, ∃ e2 ∈ filterOnlyLatestEventForEachAuthor ord events,
      e2.PubKey = e.PubKey) ∧
    (∀ e2 ∈ filterOnlyLatestEventForEachAuthor ord events, ∀ e ∈ events,
      e.PubKey = e2.PubKey → e.CreatedAt ≤ e2.CreatedAt) ∧
    (earlier.PubKey = later.PubKey → earlier.CreatedAt < later.CreatedAt →
      (db.QueryEvents ⟨[1063], [("x", [sha256])]⟩ = .ok [earlier, later] ∨
        db.QueryEvents ⟨[1063], [("x", [sha256])]⟩ = .ok [later, earlier]) →
      rejectGetHandler ord bl db (some a) sha256 = rejectGetLoop bl a.PubKey sha256 [later] ∧
      (isPubkeyTaggedInEvent later a.PubKey = some false →
        rejectGetHandler ord bl db (some a) sha256
          = some (true, "Unauthorized access or no associated event found", 403)) ∧
      (∀ v, rejectGetHandler ord bl db (some a) sha256 = some v → v.1 = false →
        isPubkeyTaggedInEvent later a.PubKey = some true)) := by
  obtain ⟨_, hval, hkey⟩ := latestEventsLoop_spec events
  refine ⟨?_, nodup_authors_filterOnlyLatest ord events, ?_, ?_, ?_⟩
  · intro e he
    exact (hval _ _ ((mem_filterOnlyLatest ord events e).mp he)).2.1
  · intro e he
    obtain ⟨e2, he2⟩ := hkey e he
    have hpk := (hval _ _ he2).1
    refine ⟨e2, (mem_filterOnlyLatest ord events e2).mpr ?_, hpk⟩
    rw [hpk]
    exact he2
  · intro e2 he2 e he hpk
    exact (hval _ _ ((mem_filterOnlyLatest ord events e2).mp he2)).2.2 e he hpk
  · intro hpk hlt hq
    have hred := filterOnlyLatest_pair ord earlier later hpk hlt
    have hgate : rejectGetHandler ord bl db (some a) sha256
        = rejectGetLoop bl a.PubKey sha256 [later] := by
      rcases hq with hq | hq
      · simp only [rejectGetHandler, hq, hred.1]
      · simp only [rejectGetHandler, hq, hred.2]
    refine ⟨hgate, ?_, ?_⟩
    · intro hscan
      rw [hgate]
      simp only [rejectGetLoop, hscan]
    · intro v hv hallow
      rw [hgate] at hv
      cases hscan : isPubkeyTaggedInEvent later a.PubKey with
      | none => simp [rejectGetLoop, hscan] at hv
      | some b =>
        cases b with
        | true => rfl
        | false =>
          simp only [rejectGetLoop, hscan, Option.some.injEq] at hv
          rw [← hv] at hallow
          cases hallow

/-- Witness for `filterOnlyLatest_reduces`: `pk3` first tagged `pk2` on `h1` (time 10) and later
published an event without that tag (time 20). The earlier event alone would allow `pk2`; with
both in the store the download is denied. -/
theorem filterOnlyLatest_reduces_witness :
    rejectGetHandler RangeOrder.insertion (serverListing "pk3" ["h1"])
        (backendReturning [metadataEvent "e1" "pk3" 10 [["x", "h1"], ["p", "pk2"]]])
        (some (credentialOf "pk2")) "h1" = some (false, "", 200) ∧
    rejectGetHandler RangeOrder.insertion (serverListing "pk3" ["h1"])
        (backendReturning [metadataEvent "e1" "pk3" 10 [["x", "h1"], ["p", "pk2"]],
          metadataEvent "e2" "pk3" 20 [["x", "h1"], ["p", "pk7"]]])
        (some (credentialOf "pk2")) "h1"
      = some (true, "Unauthorized access or no associated event found", 403) :=
  ⟨by decide,
   ((filterOnlyLatest_reduces RangeOrder.insertion [] (serverListing "pk3" ["h1"])
      (backendReturning [metadataEvent "e1" "pk3" 10 [["x", "h1"], ["p", "pk2"]],
        metadataEvent "e2" "pk3" 20 [["x", "h1"], ["p", "pk7"]]])
      (credentialOf "pk2") "h1"
      (metadataEvent "e1" "pk3" 10 [["x", "h1"], ["p", "pk2"]])
      (metadataEvent "e2" "pk3" 20 [["x", "h1"], ["p", "pk7"]])).2.2.2.2
      rfl (by decide) (Or.inl rfl)).2.1 (by decide)⟩

/-! ## The tag scan -/

/-- On a tag of at least two elements the test of `isPubkeyTaggedInEvent` does not panic, and it
answers `true` exactly when the tag starts with `"p"` followed by the requester. -/
theorem tagIsPubkey_of_two (tag : Tag) (pubkey : String) (h : 2 ≤ tag.length) :
    (tagIsPubkey tag pubkey = some true ∧ ∃ rest, tag = "p" :: pubkey :: rest) ∨
    (tagIsPubkey tag pubkey = some false ∧ ¬ ∃ rest, tag = "p" :: pubkey :: rest) := by
  match tag, h with
  | t0 :: t1 :: rest, _ =>
    by_cases h0 : t0 = "p"
    · by_cases h1 : t1 = pubkey
      · simp [tagIsPubkey, h0, h1]
      · simp [tagIsPubkey, h0, h1]
    · simp [tagIsPubkey, h0]

/-- The test panics exactly on an empty tag and on the one-element tag `["p"]`. -/
theorem tagIsPubkey_eq_none_iff (tag : Tag) (pubkey : String) :
    tagIsPubkey tag pubkey = none ↔ tag = [] ∨ tag = ["p"] := by
  match tag with
  | [] => simp [tagIsPubkey]
  | [t0] =>
    by_cases h0 : t0 = "p"
    · simp [tagIsPubkey, h0]
    · simp [tagIsPubkey, h0]
  | t0 :: t1 :: rest =>
    by_cases h0 : t0 = "p"
    · simp [tagIsPubkey, h0]
    · simp [tagIsPubkey, h0]

/-- When every tag has at least two elements, the scan returns, and it answers `true` exactly
when some tag is `"p"` followed by the requester. -/
theorem isPubkeyTaggedInTags_of_two (tags : List Tag) (pubkey : String)
    (h : ∀ tag ∈ tags, 2 ≤ tag.length) :
    (isPubkeyTaggedInTags tags pubkey = some true ∧ ∃ rest, ("p" :: pubkey :: rest) ∈ tags) ∨
    (isPubkeyTaggedInTags tags pubkey = some false ∧
      ¬ ∃ rest, ("p" :: pubkey :: rest) ∈ tags) := by
  induction tags with
  | nil => simp [isPubkeyTaggedInTags]
  | cons tag tags ih =>
    have ih2 := ih (fun t ht => h t (List.mem_cons_of_mem _ ht))
    rcases tagIsPubkey_of_two tag pubkey (h tag (List.mem_cons_self _ _)) with
      ⟨h2, rest, hrest⟩ | ⟨h2, hno⟩
    · left
      refine ⟨by simp only [isPubkeyTaggedInTags, h2], rest, ?_⟩
      rw [hrest]
      exact List.mem_cons_self _ _
    · rcases ih2 with ⟨h3, rest, hrest⟩ | ⟨h3, hno2⟩
      · left
        exact ⟨by simp only [isPubkeyTaggedInTags, h2, h3], rest, List.mem_cons_of_mem _ hrest⟩
      · right
        refine ⟨by simp only [isPubkeyTaggedInTags, h2, h3], ?_⟩
        rintro ⟨rest, hr⟩
        rcases List.mem_cons.mp hr with heq | hmem
        · exact hno ⟨rest, heq.symm⟩
        · exact hno2 ⟨rest, hmem⟩

/-- The scan panics exactly when, before any tag naming the requester, it meets an empty tag
or the one-element tag `["p"]`. -/
theorem isPubkeyTaggedInTags_eq_none_iff (tags : List Tag) (pubkey : String) :
    isPubkeyTaggedInTags tags pubkey = none ↔
      ∃ before bad after, tags = before ++ bad :: after ∧ (bad = [] ∨ bad = ["p"]) ∧
        ∀ t ∈ before, tagIsPubkey t pubkey = some false := by
  induction tags with
  | nil => simp [isPubkeyTaggedInTags]
  | cons tag tags ih =>
    cases htag : tagIsPubkey tag pubkey with
    | none =>
      simp only [isPubkeyTaggedInTags, htag, true_iff]
      exact ⟨[], tag, tags, rfl, (tagIsPubkey_eq_none_iff tag pubkey).mp htag, by simp⟩
    | some b =>
      have hgood : ¬ (tag = [] ∨ tag = ["p"]) := by
        intro hbad
        rw [(tagIsPubkey_eq_none_iff tag pubkey).mpr hbad] at htag
        cases htag
      cases b with
      | true =>
        simp only [isPubkeyTaggedInTags, htag, reduceCtorEq, false_iff]
        rintro ⟨before, bad, after, heq, hbad, hpre⟩
        cases before with
        | nil =>
          simp only [List.nil_append, List.cons.injEq] at heq
          exact hgood (heq.1 ▸ hbad)
        | cons b0 before =>
          simp only [List.cons_append, List.cons.injEq] at heq
          have h0 := hpre b0 (List.mem_cons_self _ _)
          rw [← heq.1, htag] at h0
          cases h0
      | false =>
        simp only [isPubkeyTaggedInTags, htag, ih]
        constructor
        · rintro ⟨before, bad, after, heq, hbad, hpre⟩
          refine ⟨tag :: before, bad, after, by simp [heq], hbad, ?_⟩
          intro t ht
          rcases List.mem_cons.mp ht with h1 | h1
          · rw [h1]; exact htag
          · exact hpre t h1
        · rintro ⟨before, bad, after, heq, hbad, hpre⟩
          cases before with
          | nil =>
            simp only [List.nil_append, List.cons.injEq] at heq
            exact absurd (heq.1 ▸ hbad) hgood
          | cons b0 before =>
            simp only [List.cons_append, List.cons.injEq] at heq
            exact ⟨before, bad, after, heq.2, hbad,
              fun t ht => hpre t (List.mem_cons_of_mem _ ht)⟩

/-! ## The download gate on a successful query -/

/-- The ownership test answers `true` exactly when the listing of the author succeeds and holds
a descriptor of the requested hash. -/
theorem pubkeyOwnsBlob_eq_true_iff (bl : BlossomServer) (pubkey sha256 : String) :
    pubkeyOwnsBlob bl pubkey sha256 = true ↔
      ∃ ds, bl.Store.list pubkey = .ok ds ∧ ∃ d ∈ ds, d.SHA256 = sha256 := by
  unfold pubkeyOwnsBlob
  cases hl : bl.Store.list pubkey with
  | error err => simp
  | ok ds => simp

/-- The final loop over events whose tags all have at least two elements: it allows exactly when
one of the events names the requester in a `"p"` tag and its author lists the hash, and
otherwise denies with status 403. -/
theorem rejectGetLoop_of_two (bl : BlossomServer) (pk sha256 : String) (l : List Event)
    (hwf : ∀ e ∈ l, ∀ tag ∈ e.Tags, 2 ≤ tag.length) :
    (rejectGetLoop bl pk sha256 l = some (false, "", 200) ∧
      ∃ e ∈ l, (∃ rest, ("p" :: pk :: rest) ∈ e.Tags) ∧
        pubkeyOwnsBlob bl e.PubKey sha256 = true) ∨
    (rejectGetLoop bl pk sha256 l
        = some (true, "Unauthorized access or no associated event found", 403) ∧
      ¬ ∃ e ∈ l, (∃ rest, ("p" :: pk :: rest) ∈ e.Tags) ∧
        pubkeyOwnsBlob bl e.PubKey sha256 = true) := by
  induction l with
  | nil => simp [rejectGetLoop]
  | cons event rest ih =>
    have ih2 := ih (fun e he => hwf e (List.mem_cons_of_mem _ he))
    have hscan := isPubkeyTaggedInTags_of_two event.Tags pk (hwf event (List.mem_cons_self _ _))
    have hskip : ¬ ((∃ r, ("p" :: pk :: r) ∈ event.Tags) ∧
          pubkeyOwnsBlob bl event.PubKey sha256 = true) →
        rejectGetLoop bl pk sha256 (event :: rest) = rejectGetLoop bl pk sha256 rest := by
      intro hno
      rcases hscan with ⟨h1, h2⟩ | ⟨h1, _⟩
      · have hown : pubkeyOwnsBlob bl event.PubKey sha256 = false := by
          cases hb : pubkeyOwnsBlob bl event.PubKey sha256
          · rfl
          · exact absurd ⟨h2, hb⟩ hno
        simp [rejectGetLoop, isPubkeyTaggedInEvent, h1, hown]
      · simp [rejectGetLoop, isPubkeyTaggedInEvent, h1]
    by_cases hev : (∃ r, ("p" :: pk :: r) ∈ event.Tags) ∧
        pubkeyOwnsBlob bl event.PubKey sha256 = true
    · left
      refine ⟨?_, event, List.mem_cons_self _ _, hev⟩
      rcases hscan with ⟨h1, _⟩ | ⟨_, h2⟩
      · simp [rejectGetLoop, isPubkeyTaggedInEvent, h1, hev.2]
      · exact absurd hev.1 h2
    · rw [hskip hev]
      rcases ih2 with ⟨h1, e, he, h2⟩ | ⟨h1, h2⟩
      · left
        exact ⟨h1, e, List.mem_cons_of_mem _ he, h2⟩
      · right
        refine ⟨h1, ?_⟩
        rintro ⟨e, he, h3⟩
        rcases List.mem_cons.mp he with heq | hmem
        · exact hev (heq ▸ h3)
        · exact h2 ⟨e, hmem, h3⟩

/-- The download gate on a successful query whose events all have tags of at least two
elements: for a present credential it allows with status 200 exactly when some event retained by
the latest-event-per-author reduction carries a `"p"` tag whose value is the issuer of the
credential and its author lists the hash; in every other case it denies with status 403. -/
theorem rejectGetHandler_of_two (ord : RangeOrder) (bl : BlossomServer) (db : BadgerBackend)
    (a : Event) (sha256 : String) (events : List Event)
    (hq : db.QueryEvents ⟨[1063], [("x", [sha256])]⟩ = .ok events)
    (hwf : ∀ e ∈ events, ∀ tag ∈ e.Tags, 2 ≤ tag.length) :
    (rejectGetHandler ord bl db (some a) sha256 = some (false, "", 200) ↔
      ∃ e ∈ filterOnlyLatestEventForEachAuthor ord events,
        (∃ rest, ("p" :: a.PubKey :: rest) ∈ e.Tags) ∧
        ∃ ds, bl.Store.list e.PubKey = .ok ds ∧ ∃ d ∈ ds, d.SHA256 = sha256) ∧
    ((¬ ∃ e ∈ filterOnlyLatestEventForEachAuthor ord events,
        (∃ rest, ("p" :: a.PubKey :: rest) ∈ e.Tags) ∧
        ∃ ds, bl.Store.list e.PubKey = .ok ds ∧ ∃ d ∈ ds, d.SHA256 = sha256) →
      rejectGetHandler ord bl db (some a) sha256
        = some (true, "Unauthorized access or no associated event found", 403)) := by
  have hgate : rejectGetHandler ord bl db (some a) sha256
      = rejectGetLoop bl a.PubKey sha256 (filterOnlyLatestEventForEachAuthor ord events) := by
    simp only [rejectGetHandler, hq]
  have hsub : ∀ e ∈ filterOnlyLatestEventForEachAuthor ord events, e ∈ events := by
    intro e he
    exact ((latestEventsLoop_spec events).2.1 _ _
      ((mem_filterOnlyLatest ord events e).mp he)).2.1
  have hloop := rejectGetLoop_of_two bl a.PubKey sha256
    (filterOnlyLatestEventForEachAuthor ord events) (fun e he => hwf e (hsub e he))
  simp only [pubkeyOwnsBlob_eq_true_iff] at hloop
  rw [hgate]
  rcases hloop with ⟨h1, h2⟩ | ⟨h1, h2⟩
  · exact ⟨⟨fun _ => h2, fun _ => h1⟩, fun hno => absurd h2 hno⟩
  · refine ⟨⟨fun h => ?_, fun h => absurd h h2⟩, fun _ => h1⟩
    rw [h1] at h
    simp at h

/-- Scenario C: `pk2` asks for `h1`; the only event is by `pk3`, tags `p = pk2` and `x = h1`,
and `pk3` lists `h1`: the download is allowed with status 200, in every iteration order. -/
theorem scenario_C (ord : RangeOrder) :
    rejectGetHandler ord (serverListing "pk3" ["h1"])
        (backendReturning [metadataEvent "e1" "pk3" 10 [["p", "pk2"], ["x", "h1"]]])
        (some (credentialOf "pk2")) "h1" = some (false, "", 200) := by
  simp only [rejectGetHandler, backendReturning, filterOnlyLatest_single]
  decide

/-- Scenario D: as Scenario C, but `pk3` does not list `h1`: denied with status 403. -/
theorem scenario_D (ord : RangeOrder) :
    rejectGetHandler ord (serverListing "pk3" ["h0"])
        (backendReturning [metadataEvent "e1" "pk3" 10 [["p", "pk2"], ["x", "h1"]]])
        (some (credentialOf "pk2")) "h1"
      = some (true, "Unauthorized access or no associated event found", 403) := by
  simp only [rejectGetHandler, backendReturning, filterOnlyLatest_single]
  decide

/-- Witness for `rejectGetHandler_of_two`, at the input of Scenario C. -/
theorem rejectGetHandler_of_two_witness :
    rejectGetHandler RangeOrder.insertion (serverListing "pk3" ["h1"])
        (backendReturning [metadataEvent "e1" "pk3" 10 [["p", "pk2"], ["x", "h1"]]])
        (some (credentialOf "pk2")) "h1" = some (false, "", 200) :=
  (rejectGetHandler_of_two RangeOrder.insertion (serverListing "pk3" ["h1"])
    (backendReturning [metadataEvent "e1" "pk3" 10 [["p", "pk2"], ["x", "h1"]]])
    (credentialOf "pk2") "h1" [metadataEvent "e1" "pk3" 10 [["p", "pk2"], ["x", "h1"]]]
    rfl (by decide)).1.mpr
    ⟨metadataEvent "e1" "pk3" 10 [["p", "pk2"], ["x", "h1"]], by decide,
      ⟨[], by decide⟩, [descriptorOf "h1"], rfl, descriptorOf "h1", by decide, rfl⟩

/-! ## Tags of fewer than two elements -/

/-- C1, at inputs where the code departs from it. The store returns one event of `pk3`, and
`pk3` lists `h1`. (a) The event carries `["p"]` before `["p", "pk2"]`: an event naming the
requester `pk2` is retained and its author lists the hash, yet the gate gives no verdict: it
panics on `tag[1]` of `["p"]`. (b) The event carries `["p"]` and no tag naming the requester
`pk7`: a deny with status 403 is due, yet the gate panics. Both in every iteration order. -/
theorem get_no_verdict_on_short_tag (ord : RangeOrder) :
    rejectGetHandler ord (serverListing "pk3" ["h1"])
        (backendReturning [metadataEvent "e1" "pk3" 10 [["x", "h1"], ["p"], ["p", "pk2"]]])
        (some (credentialOf "pk2")) "h1" = none ∧
    rejectGetHandler ord (serverListing "pk3" ["h1"])
        (backendReturning [metadataEvent "e1" "pk3" 10 [["x", "h1"], ["p"]]])
        (some (credentialOf "pk7")) "h1" = none := by
  constructor
  · simp only [rejectGetHandler, backendReturning, filterOnlyLatest_single]
    decide
  · simp only [rejectGetHandler, backendReturning, filterOnlyLatest_single]
    decide

/-- C8, at inputs where the code departs from it. `isPubkeyTaggedInEvent` panics (index out of
range) on an event whose first tag is `["p"]` without a value, and on an event whose first tag
is empty, instead of skipping the tag and finding the following `["p", "pk2"]`; and the download
gate gives no verdict when the store returns an event with an empty tag, whatever the blob
index and the iteration order. -/
theorem isPubkeyTagged_panics_on_malformed_tag :
    isPubkeyTaggedInEvent (metadataEvent "e1" "pk3" 10 [["p"], ["p", "pk2"]]) "pk2" = none ∧
    isPubkeyTaggedInEvent (metadataEvent "e1" "pk3" 10 [[], ["p", "pk2"]]) "pk2" = none ∧
    ∀ (ord : RangeOrder) (bl : BlossomServer),
      rejectGetHandler ord bl
        (backendReturning [metadataEvent "e1" "pk3" 10 [[], ["x", "h1"]]])
        (some (credentialOf "pk2")) "h1" = none := by
  refine ⟨by decide, by decide, ?_⟩
  intro ord bl
  simp only [rejectGetHandler, backendReturning, filterOnlyLatest_single]
  rfl

/-! ## The AllowList read from `ALLOWED_USERS` -/

theorem GoMap.index_put_true (m : GoMap Bool) (u s : String) :
    GoMap.index (GoMap.put m u true) s = true ↔ u = s ∨ GoMap.index m s = true := by
  by_cases hu : u = s
  · subst hu
    simp [GoMap.index, GoMap.find_put_same]
  · simp [GoMap.index, GoMap.find_put_other m u s true hu, hu]

theorem GoMap.index_foldl_put (segs : List String) :
    ∀ (m : GoMap Bool) (s : String),
      GoMap.index (segs.foldl (fun acc user => GoMap.put acc user true) m) s = true ↔
        GoMap.index m s = true ∨ s ∈ segs := by
  induction segs with
  | nil => intro m s; simp
  | cons u rest ih =>
    intro m s
    rw [List.foldl_cons, ih, GoMap.index_put_true]
    simp only [List.mem_cons]
    constructor
    · rintro ((h | h) | h)
      · exact Or.inr (Or.inl h.symm)
      · exact Or.inl h
      · exact Or.inr (Or.inr h)
    · rintro (h | h | h)
      · exact Or.inl (Or.inr h)
      · exact Or.inl (Or.inl h.symm)
      · exact Or.inr h

theorem splitAt_ne_nil (sep : Char) (cs : List Char) : splitAt sep cs ≠ [] := by
  cases cs with
  | nil => simp [splitAt]
  | cons c cs =>
    by_cases hc : c = sep
    · simp [splitAt, hc]
    · simp only [splitAt, hc, if_false]
      cases splitAt sep cs <;> simp

theorem splitAt_no_sep (sep : Char) (cs : List Char) :
    ∀ seg ∈ splitAt sep cs, sep ∉ seg := by
  induction cs with
  | nil => simp [splitAt]
  | cons c cs ih =>
    by_cases hc : c = sep
    · simp only [splitAt, hc, if_true, List.mem_cons]
      rintro seg (h | h)
      · simp [h]
      · exact ih seg h
    · simp only [splitAt, hc, if_false]
      cases hsp : splitAt sep cs with
      | nil => exact absurd hsp (splitAt_ne_nil sep cs)
      | cons seg0 segs =>
        rw [hsp] at ih
        simp only [List.mem_cons]
        rintro seg (h | h)
        · rw [h]
          simp only [List.mem_cons, not_or]
          exact ⟨fun h2 => hc h2.symm, ih seg0 (List.mem_cons_self _ _)⟩
        · exact ih seg (List.mem_cons_of_mem _ h)

theorem splitAt_intercalate (sep : Char) (cs : List Char) :
    List.intercalate [sep] (splitAt sep cs) = cs := by
  induction cs with
  | nil => simp [splitAt, List.intercalate]
  | cons c cs ih =>
    by_cases hc : c = sep
    · simp only [splitAt, hc, if_true]
      cases hsp : splitAt sep cs with
      | nil => exact absurd hsp (splitAt_ne_nil sep cs)
      | cons seg0 segs =>
        rw [hsp] at ih
        simp [List.intercalate] at ih ⊢
        exact ih
    · simp only [splitAt, hc, if_false]
      cases hsp : splitAt sep cs with
      | nil => exact absurd hsp (splitAt_ne_nil sep cs)
      | cons seg0 segs =>
        rw [hsp] at ih
        cases segs with
        | nil => simp [List.intercalate] at ih ⊢; exact ih
        | cons seg1 segs => simp [List.intercalate] at ih ⊢; exact ih

/-- A value ending in the separator has an empty last segment, after at least one other. -/
theorem splitAt_trailing (sep : Char) (a : List Char) :
    ∃ seg0 init, splitAt sep (a ++ [sep]) = seg0 :: init ++ [[]] := by
  induction a with
  | nil => exact ⟨[], [], by simp [splitAt]⟩
  | cons c a ih =>
    obtain ⟨seg0, init, h⟩ := ih
    by_cases hc : c = sep
    · exact ⟨[], seg0 :: init, by simp [splitAt, hc, h]⟩
    · exact ⟨c :: seg0, init, by simp [splitAt, hc, h]⟩

/-- A value with two separators in a row has an empty segment after its first one. -/
theorem splitAt_doubled (sep : Char) (a b : List Char) :
    ∃ seg0 segs, splitAt sep (a ++ sep :: sep :: b) = seg0 :: segs ∧ [] ∈ segs := by
  induction a with
  | nil => exact ⟨[], [] :: splitAt sep b, by simp [splitAt], List.mem_cons_self _ _⟩
  | cons c a ih =>
    obtain ⟨seg0, segs, h, hmem⟩ := ih
    by_cases hc : c = sep
    · exact ⟨[], seg0 :: segs, by simp [splitAt, hc, h], List.mem_cons_of_mem _ hmem⟩
    · exact ⟨c :: seg0, segs, by simp [splitAt, hc, h], hmem⟩

/-- C13. For every value `v` of `ALLOWED_USERS` and every identity `s`: `s` is in the AllowList
of `getAllowedUsers` exactly when `v` is non-empty and `s` equals one of the segments of `v`,
where the segments contain no comma and, joined by commas, give back `v` (nothing is trimmed,
no empty segment is dropped). Hence with `ALLOWED_USERS` unset or empty the AllowList is empty
and every upload and every event is rejected, while a value that ends in a comma or holds two
commas in a row puts the empty identity in the AllowList. -/
theorem allowList_membership (env : Env) :
    (∀ v, env "ALLOWED_USERS" = some v → ∀ s,
      (GoMap.index (getAllowedUsers env) s = true ↔ v ≠ "" ∧ s ∈ stringsSplitComma v)) ∧
    (∀ v : String,
      List.intercalate [','] ((stringsSplitComma v).map String.data) = v.data ∧
      ∀ seg ∈ stringsSplitComma v, ',' ∉ seg.data) ∧
    ((env "ALLOWED_USERS" = none ∨ env "ALLOWED_USERS" = some "") →
      getAllowedUsers env = [] ∧
      (∀ auth size ext, (rejectUploadHandler env auth size ext).1 = true) ∧
      (∀ event, (rejectEventHandler env event).1 = true)) ∧
    (∀ v, env "ALLOWED_USERS" = some v →
      ((∃ a, v.data = a ++ [',']) ∨ (∃ a b, v.data = a ++ ',' :: ',' :: b)) →
      GoMap.index (getAllowedUsers env) "" = true) := by
  have hmain : ∀ v, env "ALLOWED_USERS" = some v → ∀ s,
      (GoMap.index (getAllowedUsers env) s = true ↔ v ≠ "" ∧ s ∈ stringsSplitComma v) := by
    intro v hv s
    simp only [getAllowedUsers, getEnv, hv]
    by_cases hemp : v = ""
    · simp [hemp, GoMap.index, GoMap.find]
    · rw [if_neg hemp, GoMap.index_foldl_put]
      simp [hemp, GoMap.index, GoMap.find]
  refine ⟨hmain, ?_, ?_, ?_⟩
  · intro v
    constructor
    · have hmap : (stringsSplitComma v).map String.data = splitAt ',' v.data := by
        simp [stringsSplitComma, List.map_map, Function.comp_def]
      rw [hmap]
      exact splitAt_intercalate ',' v.data
    · intro seg hseg
      simp only [stringsSplitComma, List.mem_map] at hseg
      obtain ⟨cs, hcs, rfl⟩ := hseg
      exact splitAt_no_sep ',' v.data cs hcs
  · intro hunset
    have hempty : getAllowedUsers env = [] := by
      rcases hunset with h | h <;> simp [getAllowedUsers, getEnv, h]
    refine ⟨hempty, ?_, ?_⟩
    · intro auth size ext
      unfold rejectUploadHandler
      by_cases hs : size > getMaxFileSize env
      · simp [hs]
      · cases auth <;> simp [hs, hempty, GoMap.index, GoMap.find]
    · intro event
      unfold rejectEventHandler
      by_cases hk : event.Kind ≠ KindFileMetadata
      · simp [hk]
      · simp [hk, hempty, GoMap.index, GoMap.find]
  · intro v hv hshape
    rw [hmain v hv ""]
    have hne : v.data ≠ [] := by
      rcases hshape with ⟨a, h⟩ | ⟨a, b, h⟩ <;> simp [h]
    have hnil : [] ∈ splitAt ',' v.data := by
      rcases hshape with ⟨a, h⟩ | ⟨a, b, h⟩
      · obtain ⟨seg0, init, hsp⟩ := splitAt_trailing ',' a
        rw [h, hsp]
        simp
      · obtain ⟨seg0, segs, hsp, hmem⟩ := splitAt_doubled ',' a b
        rw [h, hsp]
        exact List.mem_cons_of_mem _ hmem
    constructor
    · intro hv2
      rw [hv2] at hne
      exact hne rfl
    · simp only [stringsSplitComma, List.mem_map]
      exact ⟨[], hnil, rfl⟩

/-- Witness for `allowList_membership`: with `ALLOWED_USERS` set to `pk1,` the identity `pk1`
and the empty identity are in the AllowList, ` pk1` with a leading blank is not; with no
variable set, an upload of `pk1` is rejected. -/
theorem allowList_membership_witness :
    GoMap.index (getAllowedUsers (envAllowed "pk1,")) "pk1" = true ∧
    GoMap.index (getAllowedUsers (envAllowed "pk1,")) "" = true ∧
    GoMap.index (getAllowedUsers (envAllowed "pk1,")) " pk1" = false ∧
    (rejectUploadHandler envUnset (some (credentialOf "pk1")) 1 "png").1 = true :=
  ⟨((allowList_membership (envAllowed "pk1,")).1 "pk1," rfl "pk1").mpr (by decide),
   (allowList_membership (envAllowed "pk1,")).2.2.2 "pk1," rfl (Or.inl ⟨"pk1".data, rfl⟩),
   by decide,
   ((allowList_membership envUnset).2.2.1 (Or.inl rfl)).2.1 _ _ _⟩

/-! ## Ties in the latest-event-per-author reduction -/

theorem latestEventsLoop_append (a b : List Event) :
    ∀ m : GoMap Event, latestEventsLoop (a ++ b) m = latestEventsLoop b (latestEventsLoop a m) := by
  induction a with
  | nil => intro m; rfl
  | cons event rest ih =>
    intro m
    simp only [List.cons_append, latestEventsLoop]
    cases GoMap.find m event.PubKey with
    | none => exact ih _
    | some cur =>
      simp only
      split
      · exact ih _
      · exact ih _

/-- An entry stays in the map while no newer event of its author is read. -/
theorem latestEventsLoop_stays (after : List Event) (e : Event) :
    ∀ m : GoMap Event, GoMap.find m e.PubKey = some e →
      (∀ x ∈ after, x.PubKey = e.PubKey → x.CreatedAt ≤ e.CreatedAt) →
      GoMap.find (latestEventsLoop after m) e.PubKey = some e := by
  induction after with
  | nil => intro m h _; exact h
  | cons x rest ih =>
    intro m h hle
    have hrest : ∀ y ∈ rest, y.PubKey = e.PubKey → y.CreatedAt ≤ e.CreatedAt :=
      fun y hy => hle y (List.mem_cons_of_mem _ hy)
    unfold latestEventsLoop
    by_cases hpk : x.PubKey = e.PubKey
    · have hx := hle x (List.mem_cons_self _ _) hpk
      rw [hpk, h]
      simp only
      rw [if_neg (by omega)]
      exact ih m h hrest
    · have hother : GoMap.find (GoMap.put m x.PubKey x) e.PubKey = some e := by
        rw [GoMap.find_put_other m x.PubKey e.PubKey x hpk]
        exact h
      cases GoMap.find m x.PubKey with
      | none => exact ih _ hother hrest
      | some cur =>
        simp only
        split
        · exact ih _ hother hrest
        · exact ih m h hrest

/-- The first event of an author with the greatest `CreatedAt` ends up in the map. -/
theorem latestEventsLoop_of_firstLatest (events : List Event) (e : Event)
    (h : FirstLatest events e) :
    GoMap.find (latestEventsLoop events []) e.PubKey = some e := by
  obtain ⟨before, after, heq, hbefore, hafter⟩ := h
  obtain ⟨_, hval, _⟩ := latestEventsLoop_spec before
  rw [heq, latestEventsLoop_append]
  have hstep : latestEventsLoop (e :: after) (latestEventsLoop before [])
      = latestEventsLoop after (GoMap.put (latestEventsLoop before []) e.PubKey e) := by
    conv_lhs => unfold latestEventsLoop
    cases hf : GoMap.find (latestEventsLoop before []) e.PubKey with
    | none => rfl
    | some cur =>
      obtain ⟨h1, h2, _⟩ := hval _ _ hf
      simp only
      rw [if_pos (hbefore cur h2 h1)]
  rw [hstep]
  exact latestEventsLoop_stays after e _ (GoMap.find_put_same _ _ _) hafter

/-- Every entry of the map is the first event of its author with the greatest `CreatedAt`
among the events read so far. -/
theorem latestEventsLoop_firstLatest (events : List Event) :
    ∀ (seen : List Event) (m : GoMap Event), LatestInvariant seen m →
      (∀ k e, GoMap.find m k = some e → FirstLatest seen e) →
      ∀ k e, GoMap.find (latestEventsLoop events m) k = some e →
        FirstLatest (seen ++ events) e := by
  induction events with
  | nil =>
    intro seen m _ hfirst k e hfind
    simpa [latestEventsLoop] using hfirst k e hfind
  | cons event rest ih =>
    intro seen m hinv hfirst
    have happ : seen ++ event :: rest = (seen ++ [event]) ++ rest := by simp
    rw [happ]
    have hput : (∀ cur, GoMap.find m event.PubKey = some cur →
          cur.CreatedAt < event.CreatedAt) →
        ∀ k e, GoMap.find (GoMap.put m event.PubKey event) k = some e →
          FirstLatest (seen ++ [event]) e := by
      intro hnew k e hfind
      by_cases hk : event.PubKey = k
      · subst hk
        rw [GoMap.find_put_same] at hfind
        cases hfind
        refine ⟨seen, [], rfl, ?_, by simp⟩
        intro x hx hpk
        obtain ⟨cur, hcur⟩ := hinv.2.2 x hx
        have h1 := (hinv.2.1 _ _ hcur).2.2 x hx rfl
        rw [hpk] at hcur
        have h2 := hnew cur hcur
        omega
      · rw [GoMap.find_put_other _ _ _ _ hk] at hfind
        obtain ⟨before, after, heq, hb, ha⟩ := hfirst k e hfind
        refine ⟨before, after ++ [event], by simp [heq], hb, ?_⟩
        intro x hx hpk
        rcases List.mem_append.mp hx with h1 | h1
        · exact ha x h1 hpk
        · rw [List.mem_singleton.mp h1] at hpk
          exact absurd (hpk.trans (hinv.2.1 _ _ hfind).1) hk
    unfold latestEventsLoop
    cases hfind : GoMap.find m event.PubKey with
    | none =>
      simp only
      have hnew : ∀ cur, GoMap.find m event.PubKey = some cur →
          cur.CreatedAt < event.CreatedAt := by
        intro cur hc; rw [hfind] at hc; cases hc
      exact ih _ _ (hinv.put event hnew) (hput hnew)
    | some cur =>
      simp only
      by_cases hlt : cur.CreatedAt < event.CreatedAt
      · rw [if_pos hlt]
        have hnew : ∀ c, GoMap.find m event.PubKey = some c →
            c.CreatedAt < event.CreatedAt := by
          intro c hc; rw [hfind] at hc; cases hc; exact hlt
        exact ih _ _ (hinv.put event hnew) (hput hnew)
      · rw [if_neg hlt]
        refine ih _ _ (hinv.keep event cur hfind hlt) ?_
        intro k e hf
        obtain ⟨before, after, heq, hb, ha⟩ := hfirst k e hf
        refine ⟨before, after ++ [event], by simp [heq], hb, ?_⟩
        intro x hx hpk
        rcases List.mem_append.mp hx with h1 | h1
        · exact ha x h1 hpk
        · rw [List.mem_singleton.mp h1] at hpk ⊢
          rw [hpk, (hinv.2.1 _ _ hf).1, hf] at hfind
          cases hfind
          omega

/-- C14. In every iteration order, an event is retained by
`filterOnlyLatestEventForEachAuthor` exactly when it is the first event of the input among
those of its author with the greatest `CreatedAt`: the events of its author before it are
strictly older and those after it are not newer. So of two events of one author with equal
`CreatedAt` the one read first is kept, and the retained events are fixed by the input list:
two iteration orders give the same events, up to their order in the result. -/
theorem filterOnlyLatest_keeps_first (ord : RangeOrder) (events : List Event) :
    (∀ e, e ∈ filterOnlyLatestEventForEachAuthor ord events ↔
      ∃ before after, events = before ++ e :: after ∧
        (∀ x ∈ before, x.PubKey = e.PubKey → x.CreatedAt < e.CreatedAt) ∧
        (∀ x ∈ after, x.PubKey = e.PubKey → x.CreatedAt ≤ e.CreatedAt)) ∧
    (∀ e1 e2 : Event, e1.PubKey = e2.PubKey → e1.CreatedAt = e2.CreatedAt →
      filterOnlyLatestEventForEachAuthor ord [e1, e2] = [e1]) ∧
    (∀ ord2 : RangeOrder, (filterOnlyLatestEventForEachAuthor ord events).Perm
      (filterOnlyLatestEventForEachAuthor ord2 events)) := by
  refine ⟨?_, ?_, ?_⟩
  · intro e
    rw [mem_filterOnlyLatest]
    constructor
    · intro h
      have hfl := latestEventsLoop_firstLatest events [] []
        ⟨by simp, by simp [GoMap.find], by simp⟩ (by simp [GoMap.find]) e.PubKey e h
      simpa [FirstLatest] using hfl
    · intro h
      exact latestEventsLoop_of_firstLatest events e h
  · intro e1 e2 hpk hts
    have hnot : ¬ e1.CreatedAt < e2.CreatedAt := by omega
    simp [filterOnlyLatestEventForEachAuthor, latestEventsLoop, GoMap.find, GoMap.put, hpk,
      hnot, RangeOrder.iter_singleton]
  · intro ord2
    unfold filterOnlyLatestEventForEachAuthor
    exact ((ord.perm _).map Prod.snd).trans ((ord2.perm _).map Prod.snd).symm

/-- Witness for `filterOnlyLatest_keeps_first`: `pk3` published two events at time 10, the
first tagging `pk2`, the second tagging `pk7`. Whichever is read first is the one retained. -/
theorem filterOnlyLatest_keeps_first_witness :
    filterOnlyLatestEventForEachAuthor RangeOrder.reversed
        [metadataEvent "e1" "pk3" 10 [["p", "pk2"]], metadataEvent "e2" "pk3" 10 [["p", "pk7"]]]
      = [metadataEvent "e1" "pk3" 10 [["p", "pk2"]]] ∧
    filterOnlyLatestEventForEachAuthor RangeOrder.reversed
        [metadataEvent "e2" "pk3" 10 [["p", "pk7"]], metadataEvent "e1" "pk3" 10 [["p", "pk2"]]]
      = [metadataEvent "e2" "pk3" 10 [["p", "pk7"]]] :=
  ⟨(filterOnlyLatest_keeps_first RangeOrder.reversed []).2.1 _ _ rfl rfl,
   (filterOnlyLatest_keeps_first RangeOrder.reversed []).2.1 _ _ rfl rfl⟩

/-! ## Order independence of the download gate -/

/-- When no author has two events with one `CreatedAt`, the retained events are the events
that no event of their author exceeds in `CreatedAt`. -/
theorem mem_filterOnlyLatest_of_no_tie (ord : RangeOrder) (events : List Event)
    (hnotie : ∀ x ∈ events, ∀ y ∈ events, x.PubKey = y.PubKey →
      x.CreatedAt = y.CreatedAt → x = y) (e : Event) :
    e ∈ filterOnlyLatestEventForEachAuthor ord events ↔
      e ∈ events ∧ ∀ x ∈ events, x.PubKey = e.PubKey → x.CreatedAt ≤ e.CreatedAt := by
  obtain ⟨_, hval, hkey⟩ := latestEventsLoop_spec events
  rw [mem_filterOnlyLatest]
  constructor
  · intro h
    obtain ⟨_, h2, h3⟩ := hval _ _ h
    exact ⟨h2, h3⟩
  · rintro ⟨hmem, hmax⟩
    obtain ⟨e2, he2⟩ := hkey e hmem
    obtain ⟨h1, h2, h3⟩ := hval _ _ he2
    have hle1 := hmax e2 h2 h1
    have hle2 := h3 e hmem rfl
    have heq : e2 = e := hnotie e2 h2 e hmem h1 (by omega)
    rw [← heq]
    rw [← heq] at he2
    exact he2

/-- On events whose tags all have at least two elements, the outcome of the final loop
depends only on which events are in the list, not on their order. -/
theorem rejectGetLoop_congr_of_two (bl : BlossomServer) (pk sha256 : String)
    (l1 l2 : List Event) (hmem : ∀ e, e ∈ l1 ↔ e ∈ l2)
    (hwf : ∀ e ∈ l1, ∀ tag ∈ e.Tags, 2 ≤ tag.length) :
    rejectGetLoop bl pk sha256 l1 = rejectGetLoop bl pk sha256 l2 := by
  have hwf2 : ∀ e ∈ l2, ∀ tag ∈ e.Tags, 2 ≤ tag.length :=
    fun e he => hwf e ((hmem e).mpr he)
  rcases rejectGetLoop_of_two bl pk sha256 l1 hwf with ⟨h1, e, he, hp⟩ | ⟨h1, hno⟩
  · rcases rejectGetLoop_of_two bl pk sha256 l2 hwf2 with ⟨h2, _⟩ | ⟨_, hno2⟩
    · rw [h1, h2]
    · exact absurd ⟨e, (hmem e).mp he, hp⟩ hno2
  · rcases rejectGetLoop_of_two bl pk sha256 l2 hwf2 with ⟨_, e, he, hp⟩ | ⟨h2, _⟩
    · exact absurd ⟨e, (hmem e).mpr he, hp⟩ hno
    · rw [h1, h2]

/-- Order independence on events whose tags all have at least two elements: two successful
query results that are permutations of each other, with no author holding two events of one
`CreatedAt`, get the same verdict, under any two iteration orders of the map. -/
theorem rejectGetHandler_order_independent_of_two (ord1 ord2 : RangeOrder)
    (bl : BlossomServer) (db1 db2 : BadgerBackend) (a : Event) (sha256 : String)
    (events1 events2 : List Event)
    (hq1 : db1.QueryEvents ⟨[1063], [("x", [sha256])]⟩ = .ok events1)
    (hq2 : db2.QueryEvents ⟨[1063], [("x", [sha256])]⟩ = .ok events2)
    (hperm : events1.Perm events2)
    (hnotie : ∀ x ∈ events1, ∀ y ∈ events1, x.PubKey = y.PubKey →
      x.CreatedAt = y.CreatedAt → x = y)
    (hwf : ∀ e ∈ events1, ∀ tag ∈ e.Tags, 2 ≤ tag.length) :
    rejectGetHandler ord1 bl db1 (some a) sha256
      = rejectGetHandler ord2 bl db2 (some a) sha256 := by
  have hnotie2 : ∀ x ∈ events2, ∀ y ∈ events2, x.PubKey = y.PubKey →
      x.CreatedAt = y.CreatedAt → x = y :=
    fun x hx y hy => hnotie x (hperm.mem_iff.mpr hx) y (hperm.mem_iff.mpr hy)
  have hmem : ∀ e, e ∈ filterOnlyLatestEventForEachAuthor ord1 events1 ↔
      e ∈ filterOnlyLatestEventForEachAuthor ord2 events2 := by
    intro e
    rw [mem_filterOnlyLatest_of_no_tie ord1 events1 hnotie,
      mem_filterOnlyLatest_of_no_tie ord2 events2 hnotie2]
    constructor
    · rintro ⟨h1, h2⟩
      exact ⟨hperm.mem_iff.mp h1, fun x hx => h2 x (hperm.mem_iff.mpr hx)⟩
    · rintro ⟨h1, h2⟩
      exact ⟨hperm.mem_iff.mpr h1, fun x hx => h2 x (hperm.mem_iff.mp hx)⟩
  have hwfr : ∀ e ∈ filterOnlyLatestEventForEachAuthor ord1 events1,
      ∀ tag ∈ e.Tags, 2 ≤ tag.length := by
    intro e he
    exact hwf e (((mem_filterOnlyLatest_of_no_tie ord1 events1 hnotie e).mp he).1)
  simp only [rejectGetHandler, hq1, hq2]
  exact rejectGetLoop_congr_of_two bl a.PubKey sha256 _ _ hmem hwfr

/-- Witness for `rejectGetHandler_order_independent_of_two`: two authors, the store returning
their events in either order, the map ranged over in either order. -/
theorem rejectGetHandler_order_independent_of_two_witness :
    rejectGetHandler RangeOrder.insertion (serverListing "pk3" ["h1"])
        (backendReturning [metadataEvent "e1" "pk4" 10 [["x", "h1"], ["p", "pk7"]],
          metadataEvent "e2" "pk3" 20 [["x", "h1"], ["p", "pk2"]]])
        (some (credentialOf "pk2")) "h1"
      = rejectGetHandler RangeOrder.reversed (serverListing "pk3" ["h1"])
        (backendReturning [metadataEvent "e2" "pk3" 20 [["x", "h1"], ["p", "pk2"]],
          metadataEvent "e1" "pk4" 10 [["x", "h1"], ["p", "pk7"]]])
        (some (credentialOf "pk2")) "h1" :=
  rejectGetHandler_order_independent_of_two RangeOrder.insertion RangeOrder.reversed
    (serverListing "pk3" ["h1"]) _ _ (credentialOf "pk2") "h1"
    [metadataEvent "e1" "pk4" 10 [["x", "h1"], ["p", "pk7"]],
      metadataEvent "e2" "pk3" 20 [["x", "h1"], ["p", "pk2"]]]
    [metadataEvent "e2" "pk3" 20 [["x", "h1"], ["p", "pk2"]],
      metadataEvent "e1" "pk4" 10 [["x", "h1"], ["p", "pk7"]]]
    rfl rfl (List.Perm.swap _ _ _) (by decide) (by decide)

/-- C15, at an input where the code departs from it. The store holds an event of `pk4` with the
one-element tag `["p"]` and an event of `pk3` that tags the requester `pk2`; `pk3` lists `h1`;
no author has two events. When the map is ranged over with the event of `pk4` first, the gate
panics; with the event of `pk3` first it allows. The same happens, in one iteration order,
between the query result and its permutation. -/
theorem get_verdict_depends_on_order :
    rejectGetHandler RangeOrder.insertion (serverListing "pk3" ["h1"])
        (backendReturning [metadataEvent "e1" "pk4" 10 [["x", "h1"], ["p"]],
          metadataEvent "e2" "pk3" 20 [["x", "h1"], ["p", "pk2"]]])
        (some (credentialOf "pk2")) "h1" = none ∧
    rejectGetHandler RangeOrder.reversed (serverListing "pk3" ["h1"])
        (backendReturning [metadataEvent "e1" "pk4" 10 [["x", "h1"], ["p"]],
          metadataEvent "e2" "pk3" 20 [["x", "h1"], ["p", "pk2"]]])
        (some (credentialOf "pk2")) "h1" = some (false, "", 200) ∧
    rejectGetHandler RangeOrder.insertion (serverListing "pk3" ["h1"])
        (backendReturning [metadataEvent "e2" "pk3" 20 [["x", "h1"], ["p", "pk2"]],
          metadataEvent "e1" "pk4" 10 [["x", "h1"], ["p"]]])
        (some (credentialOf "pk2")) "h1" = some (false, "", 200) := by
  decide

/-! ## Listing failures -/

/-- The ownership test answers `false` when the listing fails. -/
theorem pubkeyOwnsBlob_of_error (bl : BlossomServer) (pubkey sha256 err : String)
    (h : bl.Store.list pubkey = .error err) : pubkeyOwnsBlob bl pubkey sha256 = false := by
  simp [pubkeyOwnsBlob, h]

/-- When no author of the list owns the blob, the final loop never allows: it either denies
with status 403 or panics; it denies when the tag scan of every event returns. -/
theorem rejectGetLoop_of_no_owner (bl : BlossomServer) (pk sha256 : String) (l : List Event)
    (hown : ∀ e ∈ l, pubkeyOwnsBlob bl e.PubKey sha256 = false) :
    (rejectGetLoop bl pk sha256 l = none ∨
      rejectGetLoop bl pk sha256 l
        = some (true, "Unauthorized access or no associated event found", 403)) ∧
    ((∀ e ∈ l, isPubkeyTaggedInEvent e pk ≠ none) →
      rejectGetLoop bl pk sha256 l
        = some (true, "Unauthorized access or no associated event found", 403)) := by
  induction l with
  | nil => simp [rejectGetLoop]
  | cons event rest ih =>
    have ih2 := ih (fun e he => hown e (List.mem_cons_of_mem _ he))
    have h0 := hown event (List.mem_cons_self _ _)
    cases hscan : isPubkeyTaggedInEvent event pk with
    | none =>
      refine ⟨Or.inl (by simp [rejectGetLoop, hscan]), ?_⟩
      intro hret
      exact absurd hscan (hret event (List.mem_cons_self _ _))
    | some b =>
      have hskip : rejectGetLoop bl pk sha256 (event :: rest)
          = rejectGetLoop bl pk sha256 rest := by
        cases b <;> simp [rejectGetLoop, hscan, h0]
      rw [hskip]
      exact ⟨ih2.1, fun hret => ih2.2 (fun e he => hret e (List.mem_cons_of_mem _ he))⟩

/-- When the listing fails for the author of every event the store returns, the download gate
never allows and never answers 500: a verdict it returns is the deny with status 403; and it
returns that verdict when the tags of all events have at least two elements. -/
theorem rejectGetHandler_of_listing_failure (ord : RangeOrder) (bl : BlossomServer)
    (db : BadgerBackend) (a : Event) (sha256 : String) (events : List Event)
    (hq : db.QueryEvents ⟨[1063], [("x", [sha256])]⟩ = .ok events)
    (hfail : ∀ e ∈ events, ∃ err, bl.Store.list e.PubKey = .error err) :
    (∀ v, rejectGetHandler ord bl db (some a) sha256 = some v →
      v = (true, "Unauthorized access or no associated event found", 403)) ∧
    ((∀ e ∈ events, ∀ tag ∈ e.Tags, 2 ≤ tag.length) →
      rejectGetHandler ord bl db (some a) sha256
        = some (true, "Unauthorized access or no associated event found", 403)) := by
  have hsub : ∀ e ∈ filterOnlyLatestEventForEachAuthor ord events, e ∈ events := by
    intro e he
    exact ((latestEventsLoop_spec events).2.1 _ _
      ((mem_filterOnlyLatest ord events e).mp he)).2.1
  have hown : ∀ e ∈ filterOnlyLatestEventForEachAuthor ord events,
      pubkeyOwnsBlob bl e.PubKey sha256 = false := by
    intro e he
    obtain ⟨err, herr⟩ := hfail e (hsub e he)
    exact pubkeyOwnsBlob_of_error bl _ _ err herr
  have hloop := rejectGetLoop_of_no_owner bl a.PubKey sha256 _ hown
  simp only [rejectGetHandler, hq]
  constructor
  · intro v hv
    rcases hloop.1 with h | h
    · rw [h] at hv
      cases hv
    · rw [h] at hv
      cases hv
      rfl
  · intro hwf
    apply hloop.2
    intro e he hnone
    rcases isPubkeyTaggedInTags_of_two e.Tags a.PubKey (hwf e (hsub e he)) with ⟨h1, _⟩ | ⟨h1, _⟩
    · rw [isPubkeyTaggedInEvent, h1] at hnone
      cases hnone
    · rw [isPubkeyTaggedInEvent, h1] at hnone
      cases hnone

/-- Witness for `rejectGetHandler_of_listing_failure`: the event of `pk3` tags `pk2`, the
listing of every author fails, and the download is denied with status 403. -/
theorem rejectGetHandler_of_listing_failure_witness :
    rejectGetHandler RangeOrder.insertion (serverListingFails "index unavailable")
        (backendReturning [metadataEvent "e1" "pk3" 10 [["x", "h1"], ["p", "pk2"]]])
        (some (credentialOf "pk2")) "h1"
      = some (true, "Unauthorized access or no associated event found", 403) :=
  (rejectGetHandler_of_listing_failure RangeOrder.insertion
    (serverListingFails "index unavailable")
    (backendReturning [metadataEvent "e1" "pk3" 10 [["x", "h1"], ["p", "pk2"]]])
    (credentialOf "pk2") "h1" [metadataEvent "e1" "pk3" 10 [["x", "h1"], ["p", "pk2"]]]
    rfl (fun _ _ => ⟨"index unavailable", rfl⟩)).2 (by decide)

/-- C16, at an input where the code departs from it. The listing of every author fails, so
`pubkeyOwnsBlob` answers `false` for the candidate `pk3`, whose event tags the requester `pk2`;
the scan then moves on to the event of `pk4`, which carries the one-element tag `["p"]`, and
panics: no deny with status 403 is returned. With the listing of `pk3` in order, the same
request is allowed before the event of `pk4` is looked at. -/
theorem get_no_verdict_on_listing_failure :
    pubkeyOwnsBlob (serverListingFails "index unavailable") "pk3" "h1" = false ∧
    rejectGetHandler RangeOrder.insertion (serverListingFails "index unavailable")
        (backendReturning [metadataEvent "e2" "pk3" 20 [["x", "h1"], ["p", "pk2"]],
          metadataEvent "e1" "pk4" 10 [["x", "h1"], ["p"]]])
        (some (credentialOf "pk2")) "h1" = none ∧
    rejectGetHandler RangeOrder.insertion (serverListing "pk3" ["h1"])
        (backendReturning [metadataEvent "e2" "pk3" 20 [["x", "h1"], ["p", "pk2"]],
          metadataEvent "e1" "pk4" 10 [["x", "h1"], ["p"]]])
        (some (credentialOf "pk2")) "h1" = some (false, "", 200) := by
  decide

/-! ## Storing a blob -/

/-- C11, as stated, fails: with AllowList `pk1`, on a server without handlers, the rules that
`configureBlossomRules` installs hold no delete rule at all, so neither the delete request
without credential nor the one of `pk9`, who is not allow-listed, is rejected by any of them. -/
theorem delete_not_gated_counterexample :
    GoMap.index (getAllowedUsers (envAllowed "pk1")) "pk9" = false ∧
    (configureBlossomRules (serverListing "pk1" ["h1"]) (backendReturning [])
      BlossomHooks.fresh).RejectDelete.length = 0 ∧
    (¬ ∃ rule ∈ (configureBlossomRules (serverListing "pk1" ["h1"]) (backendReturning [])
        BlossomHooks.fresh).RejectDelete,
      (rule (envAllowed "pk1") none "h1").1 = true) ∧
    (¬ ∃ rule ∈ (configureBlossomRules (serverListing "pk1" ["h1"]) (backendReturning [])
        BlossomHooks.fresh).RejectDelete,
      (rule (envAllowed "pk1") (some (deleteCredentialOf "pk9" "h1")) "h1").1 = true) := by
  refine ⟨by decide, rfl, ?_, ?_⟩ <;> simp [configureBlossomRules, BlossomHooks.fresh]

/-- C11, amended. `configureBlossomRules` installs no rule for delete requests: it appends
`rejectGetHandler` to `RejectGet`, `rejectUploadHandler` to `RejectUpload`, and
`storeBlobHandler`, `loadBlobHandler`, `deleteBlobHandler` to `StoreBlob`, `LoadBlob`,
`DeleteBlob`, and it leaves `RejectDelete` and `RejectList` as it found them. So a delete
request is rejected by a `RejectDelete` rule after `configureBlossomRules` exactly when one
rejected it before, and on a server that had no delete rule no rule rejects it, whatever the
environment (the AllowList), the credential and the hash. -/
theorem delete_not_gated (bl : BlossomServer) (db : BadgerBackend) (hooks : BlossomHooks)
    (env : Env) (auth : Option Event) (sha256 : String) :
    (configureBlossomRules bl db hooks).RejectDelete = hooks.RejectDelete ∧
    (configureBlossomRules bl db hooks).RejectList = hooks.RejectList ∧
    (configureBlossomRules bl db hooks).RejectGet
      = hooks.RejectGet ++ [fun ord a h => rejectGetHandler ord bl db a h] ∧
    (configureBlossomRules bl db hooks).RejectUpload
      = hooks.RejectUpload ++ [rejectUploadHandler] ∧
    (configureBlossomRules bl db hooks).StoreBlob = hooks.StoreBlob ++ [storeBlobHandler] ∧
    (configureBlossomRules bl db hooks).LoadBlob = hooks.LoadBlob ++ [loadBlobHandler] ∧
    (configureBlossomRules bl db hooks).DeleteBlob = hooks.DeleteBlob ++ [deleteBlobHandler] ∧
    ((∃ rule ∈ (configureBlossomRules bl db hooks).RejectDelete,
        (rule env auth sha256).1 = true) ↔
      ∃ rule ∈ hooks.RejectDelete, (rule env auth sha256).1 = true) ∧
    (hooks.RejectDelete = [] →
      ¬ ∃ rule ∈ (configureBlossomRules bl db hooks).RejectDelete,
        (rule env auth sha256).1 = true) := by
  refine ⟨rfl, rfl, rfl, rfl, rfl, rfl, rfl, Iff.rfl, ?_⟩
  intro hnone
  simp [configureBlossomRules, hnone]

/-- Witness for `delete_not_gated`: with AllowList `pk1` and no delete rule on the server, no
installed rule rejects the delete request of `pk9`. -/
theorem delete_not_gated_witness :
    ¬ ∃ rule ∈ (configureBlossomRules (serverListing "pk1" ["h1"]) (backendReturning [])
        BlossomHooks.fresh).RejectDelete,
      (rule (envAllowed "pk1") (some (deleteCredentialOf "pk9" "h1")) "h1").1 = true :=
  (delete_not_gated (serverListing "pk1" ["h1"]) (backendReturning []) BlossomHooks.fresh
    (envAllowed "pk1") (some (deleteCredentialOf "pk9" "h1")) "h1").2.2.2.2.2.2.2.2 rfl

/-! ## The later event with a short tag -/

/-- C3, at an input where the code departs from it. `pk3` published two events for `h1`: the
earlier (time 10) tags the requester `pk2`, the later (time 20) carries the one-element tag
`["p"]` and no tag naming `pk2`; `pk3` lists `h1`. The reduction keeps the later event alone,
as claimed, but the download is not denied: the gate panics on `tag[1]` of `["p"]` and gives
no verdict, in every iteration order and in either order of the query result. -/
theorem get_no_verdict_on_later_short_tag (ord : RangeOrder) :
    isPubkeyTaggedInEvent (metadataEvent "e1" "pk3" 10 [["x", "h1"], ["p", "pk2"]]) "pk2"
      = some true ∧
    (¬ ∃ rest, ("p" :: "pk2" :: rest) ∈
      (metadataEvent "e2" "pk3" 20 [["x", "h1"], ["p"]]).Tags) ∧
    filterOnlyLatestEventForEachAuthor ord
        [metadataEvent "e1" "pk3" 10 [["x", "h1"], ["p", "pk2"]],
          metadataEvent "e2" "pk3" 20 [["x", "h1"], ["p"]]]
      = [metadataEvent "e2" "pk3" 20 [["x", "h1"], ["p"]]] ∧
    rejectGetHandler ord (serverListing "pk3" ["h1"])
        (backendReturning [metadataEvent "e1" "pk3" 10 [["x", "h1"], ["p", "pk2"]],
          metadataEvent "e2" "pk3" 20 [["x", "h1"], ["p"]]])
        (some (credentialOf "pk2")) "h1" = none ∧
    rejectGetHandler ord (serverListing "pk3" ["h1"])
        (backendReturning [metadataEvent "e2" "pk3" 20 [["x", "h1"], ["p"]],
          metadataEvent "e1" "pk3" 10 [["x", "h1"], ["p", "pk2"]]])
        (some (credentialOf "pk2")) "h1" = none := by
  have hred := filterOnlyLatest_pair ord
    (metadataEvent "e1" "pk3" 10 [["x", "h1"], ["p", "pk2"]])
    (metadataEvent "e2" "pk3" 20 [["x", "h1"], ["p"]]) rfl (by decide)
  refine ⟨by decide, by simp [metadataEvent], hred.1, ?_, ?_⟩
  · simp only [rejectGetHandler, backendReturning, hred.1]
    decide
  · simp only [rejectGetHandler, backendReturning, hred.2]
    decide

end BlobstrRelay
